import Mathlib

/-!
Verification development for the `roadmap-caching-proxy` repository.

The Python sources are shallowly embedded as executable Lean definitions:

* `src/caching_proxy/cache/in_memory.py` — `InMemoryResponseCache` and its
  operations, modelled over an association list that mirrors Python's
  insertion-ordered `OrderedDict` (keys are unique in every state reachable
  through the dict API; operations that Python's runtime would abort with an
  exception are modelled with `Option`, where `none` is the raised exception
  and the pre-state is the state the mutated object is left in).
* `src/caching_proxy/http/message.py` — header parsing/serialization and the
  dechunking message builder, modelled at the level of decoded text
  (`List Char`); the UTF-8 decode/encode steps of the source are identities
  on this representation.
* `src/caching_proxy/http/reader.py` — the chunked/content-length body
  readers over a finite byte stream.
* `src/caching_proxy/server.py` — the cache-relevant behaviour of
  `CachingProxyServer._handle_request` (socket I/O is abstracted: the origin
  response is a parameter, writes are recorded in the result).
-/

set_option maxHeartbeats 1000000

/-! ## Cache model — `src/caching_proxy/cache/in_memory.py` -/

/-- One value of the `_cache` ordered dict: the Python dict
`{"response": response, "HIT_TTL": ttl}`. -/
structure CacheEntry (V : Type) where
  response : V
  hitTTL : Int
deriving Repr, DecidableEq

/-- The `OrderedDict` underlying `InMemoryResponseCache._cache`, as an
insertion-ordered association list.  Keys are unique in every reachable
state, so the remove/assign operations below (which act on every occurrence
of the key) coincide with the dict operations of the source. -/
abbrev Store (K V : Type) := List (K × CacheEntry V)

/-- `self._cache.get(key)` / `self._cache[key]` lookup. -/
def storeGet [DecidableEq K] : Store K V → K → Option (CacheEntry V)
  | [], _ => none
  | (k', e) :: rest, k => if k' = k then some e else storeGet rest k

/-- `self._cache[key] = entry`: update in place when the key is present
(an `OrderedDict` keeps the key's position), append at the end otherwise. -/
def storeSet [DecidableEq K] : Store K V → K → CacheEntry V → Store K V
  | [], k, e => [(k, e)]
  | (k', e') :: rest, k, e =>
      if k' = k then (k, e) :: rest
      else (k', e') :: storeSet rest k e

/-- `self._cache.pop(key)`: drop the entry with the given key.  (When the
key is absent Python raises `KeyError`, leaving the dict unchanged; the
call sites in the source either guard the call or propagate the error, and
the post-state is the unchanged store either way.) -/
def storeRemove [DecidableEq K] : Store K V → K → Store K V
  | [], _ => []
  | (k', e) :: rest, k =>
      if k' = k then storeRemove rest k else (k', e) :: storeRemove rest k

/-- `self._cache.move_to_end(key)`: re-insert the key's entry at the
most-recently-used end.  (`move_to_end` raises on a missing key, leaving
the dict unchanged; the only call site guards the key's presence.) -/
def storeMoveToEnd [DecidableEq K] (s : Store K V) (k : K) : Store K V :=
  match storeGet s k with
  | none => s
  | some e => storeRemove s k ++ [(k, e)]

/-- `InMemoryResponseCache.__init__`: the store plus the three
configuration fields. -/
structure InMemoryResponseCache (K V : Type) where
  cache : Store K V
  cacheSizeLimit : Nat
  evictionPolicy : String
  hitTTL : Int
deriving Repr, DecidableEq

/-- `InMemoryResponseCache.has_cached_response`: miss on an absent key;
on `HIT_TTL == 0` remove the entry and report a miss; otherwise hit.
Returns the post-state together with the boolean. -/
def hasCachedResponse [DecidableEq K] (c : InMemoryResponseCache K V) (k : K) :
    InMemoryResponseCache K V × Bool :=
  match storeGet c.cache k with
  | none => (c, false)
  | some e =>
      if e.hitTTL = 0 then ({ c with cache := storeRemove c.cache k }, false)
      else (c, true)

/-- `InMemoryResponseCache.remove_from_cache`. -/
def removeFromCache [DecidableEq K] (c : InMemoryResponseCache K V) (k : K) :
    InMemoryResponseCache K V :=
  { c with cache := storeRemove c.cache k }

/-- `InMemoryResponseCache.get_cached_response`: look the key up
(`KeyError`, i.e. `none`, when absent), decrement `HIT_TTL`
unconditionally, move the entry to the most-recently-used end and return
the stored response. -/
def getCachedResponse [DecidableEq K] (c : InMemoryResponseCache K V) (k : K) :
    Option (InMemoryResponseCache K V × V) :=
  match storeGet c.cache k with
  | none => none
  | some e =>
      let e2 : CacheEntry V := { e with hitTTL := e.hitTTL - 1 }
      some ({ c with cache := storeMoveToEnd (storeSet c.cache k e2) k }, e2.response)

/-- `InMemoryResponseCache.evict`: dispatch on the policy string.  Under
`"lru"`, `popitem(last=False)` raises `KeyError` (`none`) on an empty
store.  A policy string matching no `case` arm falls through as a no-op,
exactly like Python's `match`. -/
def evict (c : InMemoryResponseCache K V) : Option (InMemoryResponseCache K V) :=
  if c.evictionPolicy = "entire" then some { c with cache := [] }
  else if c.evictionPolicy = "lru" then
    match c.cache with
    | [] => none
    | _ :: rest => some { c with cache := rest }
  else some c

/-- `InMemoryResponseCache.cache_response`: do nothing when the size limit
is `0`; evict once when the store is at (or beyond) the limit; insert the
new entry with `HIT_TTL := hit_ttl`. -/
def cacheResponse [DecidableEq K] (c : InMemoryResponseCache K V) (k : K) (v : V) :
    Option (InMemoryResponseCache K V) :=
  if c.cacheSizeLimit = 0 then some c
  else
    match (if c.cache.length ≥ c.cacheSizeLimit then evict c else some c) with
    | none => none
    | some c2 => some { c2 with cache := storeSet c2.cache k ⟨v, c.hitTTL⟩ }

/-- `InMemoryResponseCache.get_cache_size`. -/
def getCacheSize (c : InMemoryResponseCache K V) : Nat := c.cache.length

/-- The body of one wake-up of `periodic_cache_cleaner` (src/main.py):
skip when the cache is empty, call `evict` otherwise. -/
def cleanerStep (c : InMemoryResponseCache K V) : Option (InMemoryResponseCache K V) :=
  if getCacheSize c = 0 then some c else evict c

/-! ### Basic store lemmas -/

theorem storeGet_storeSet_self [DecidableEq K] (s : Store K V) (k : K) (e : CacheEntry V) :
    storeGet (storeSet s k e) k = some e := by
  induction s with
  | nil => simp [storeSet, storeGet]
  | cons p rest ih =>
      obtain ⟨k', e'⟩ := p
      by_cases h : k' = k <;> simp [storeSet, storeGet, h, ih]

theorem storeGet_storeRemove_self [DecidableEq K] (s : Store K V) (k : K) :
    storeGet (storeRemove s k) k = none := by
  induction s with
  | nil => simp [storeRemove, storeGet]
  | cons p rest ih =>
      obtain ⟨k', e'⟩ := p
      by_cases h : k' = k <;> simp [storeRemove, storeGet, h, ih]

theorem storeGet_append_of_none [DecidableEq K] (s t : Store K V) (k : K)
    (h : storeGet s k = none) : storeGet (s ++ t) k = storeGet t k := by
  induction s with
  | nil => rfl
  | cons p rest ih =>
      obtain ⟨k', e'⟩ := p
      by_cases hk : k' = k
      · simp [storeGet, hk] at h
      · simp only [storeGet, hk, if_false, List.cons_append] at h ⊢
        exact ih h

theorem storeGet_storeMoveToEnd_self [DecidableEq K] (s : Store K V) (k : K) :
    storeGet (storeMoveToEnd s k) k = storeGet s k := by
  unfold storeMoveToEnd
  cases h : storeGet s k with
  | none => exact h
  | some e =>
      show storeGet (storeRemove s k ++ [(k, e)]) k = some e
      rw [storeGet_append_of_none _ _ _ (storeGet_storeRemove_self s k)]
      simp [storeGet]

theorem storeSet_length_le [DecidableEq K] (s : Store K V) (k : K) (e : CacheEntry V) :
    (storeSet s k e).length ≤ s.length + 1 := by
  induction s with
  | nil => simp [storeSet]
  | cons p rest ih =>
      obtain ⟨k', e'⟩ := p
      by_cases h : k' = k
      · simp [storeSet, h]
      · simp [storeSet, h]; omega

theorem storeRemove_length_le [DecidableEq K] (s : Store K V) (k : K) :
    (storeRemove s k).length ≤ s.length := by
  induction s with
  | nil => simp [storeRemove]
  | cons p rest ih =>
      obtain ⟨k', e'⟩ := p
      by_cases h : k' = k <;> (simp [storeRemove, h]; omega)

theorem storeSet_length_of_present [DecidableEq K] (s : Store K V) (k : K)
    (e : CacheEntry V) (h : (storeGet s k).isSome) :
    (storeSet s k e).length = s.length := by
  induction s with
  | nil => simp [storeGet] at h
  | cons p rest ih =>
      obtain ⟨k', e'⟩ := p
      by_cases hk : k' = k
      · simp [storeSet, hk]
      · simp only [storeGet, hk, if_false] at h
        simp [storeSet, hk, ih h]

theorem storeSet_length_of_absent [DecidableEq K] (s : Store K V) (k : K)
    (e : CacheEntry V) (h : storeGet s k = none) :
    (storeSet s k e).length = s.length + 1 := by
  induction s with
  | nil => simp [storeSet]
  | cons p rest ih =>
      obtain ⟨k', e'⟩ := p
      by_cases hk : k' = k
      · simp [storeGet, hk] at h
      · simp only [storeGet, hk, if_false] at h
        simp [storeSet, hk, ih h]

theorem storeRemove_length_of_present [DecidableEq K] (s : Store K V) (k : K)
    (h : (storeGet s k).isSome) :
    (storeRemove s k).length + 1 ≤ s.length := by
  induction s with
  | nil => simp [storeGet] at h
  | cons p rest ih =>
      obtain ⟨k', e'⟩ := p
      by_cases hk : k' = k
      · have := storeRemove_length_le rest k
        simp [storeRemove, hk]
        omega
      · simp only [storeGet, hk, if_false] at h
        have := ih h
        simp [storeRemove, hk]
        omega

theorem storeSet_append_of_absent [DecidableEq K] (s : Store K V) (k : K)
    (e : CacheEntry V) (h : storeGet s k = none) :
    storeSet s k e = s ++ [(k, e)] := by
  induction s with
  | nil => rfl
  | cons p rest ih =>
      obtain ⟨k', e'⟩ := p
      by_cases hk : k' = k
      · simp [storeGet, hk] at h
      · simp only [storeGet, hk, if_false] at h
        simp [storeSet, hk, ih h]

theorem storeGet_of_absent [DecidableEq K] (s : Store K V) (k : K)
    (h : ∀ p ∈ s, p.1 ≠ k) : storeGet s k = none := by
  induction s with
  | nil => rfl
  | cons p rest ih =>
      obtain ⟨k', e'⟩ := p
      have h1 : k' ≠ k := h (k', e') (by simp)
      simp only [storeGet, h1, if_false]
      exact ih (fun q hq => h q (by simp [hq]))

theorem storeRemove_of_absent [DecidableEq K] (s : Store K V) (k : K)
    (h : ∀ p ∈ s, p.1 ≠ k) : storeRemove s k = s := by
  induction s with
  | nil => rfl
  | cons p rest ih =>
      obtain ⟨k', e'⟩ := p
      have h1 : k' ≠ k := h (k', e') (by simp)
      simp only [storeRemove, h1, if_false]
      rw [ih (fun q hq => h q (by simp [hq]))]

/-! ### Behaviour of the cache operations -/

theorem hasCachedResponse_hit [DecidableEq K] (c : InMemoryResponseCache K V) (k : K)
    (e : CacheEntry V) (h : storeGet c.cache k = some e) (hne : e.hitTTL ≠ 0) :
    hasCachedResponse c k = (c, true) := by
  unfold hasCachedResponse
  rw [h]
  simp [hne]

theorem hasCachedResponse_expired [DecidableEq K] (c : InMemoryResponseCache K V) (k : K)
    (e : CacheEntry V) (h : storeGet c.cache k = some e) (hz : e.hitTTL = 0) :
    hasCachedResponse c k = ({ c with cache := storeRemove c.cache k }, false) := by
  unfold hasCachedResponse
  rw [h]
  simp [hz]

theorem getCachedResponse_spec [DecidableEq K] (c : InMemoryResponseCache K V) (k : K)
    (e : CacheEntry V) (h : storeGet c.cache k = some e) :
    getCachedResponse c k =
      some ({ c with cache :=
        storeMoveToEnd (storeSet c.cache k ⟨e.response, e.hitTTL - 1⟩) k }, e.response) := by
  unfold getCachedResponse
  rw [h]

theorem getCachedResponse_entry [DecidableEq K] (c c2 : InMemoryResponseCache K V)
    (k : K) (e : CacheEntry V) (v : V) (h : storeGet c.cache k = some e)
    (h2 : getCachedResponse c k = some (c2, v)) :
    v = e.response ∧ storeGet c2.cache k = some ⟨e.response, e.hitTTL - 1⟩ := by
  rw [getCachedResponse_spec c k e h] at h2
  obtain ⟨h3, h4⟩ := Prod.mk.injEq .. ▸ (Option.some.injEq .. ▸ h2)
  constructor
  · exact h4.symm
  · rw [← h3]
    show storeGet (storeMoveToEnd (storeSet c.cache k ⟨e.response, e.hitTTL - 1⟩) k) k = _
    rw [storeGet_storeMoveToEnd_self, storeGet_storeSet_self]

theorem getCachedResponse_length_le [DecidableEq K] (c c2 : InMemoryResponseCache K V)
    (k : K) (v : V) (h : getCachedResponse c k = some (c2, v)) :
    c2.cache.length ≤ c.cache.length := by
  unfold getCachedResponse at h
  cases hg : storeGet c.cache k with
  | none => rw [hg] at h; exact absurd h (by simp)
  | some e =>
      rw [hg] at h
      simp only [Option.some.injEq, Prod.mk.injEq] at h
      have hc2 : c2.cache =
          storeMoveToEnd (storeSet c.cache k ⟨e.response, e.hitTTL - 1⟩) k := by
        rw [← h.1]
      rw [hc2]
      unfold storeMoveToEnd
      rw [storeGet_storeSet_self]
      have hset : (storeSet c.cache k ⟨e.response, e.hitTTL - 1⟩).length = c.cache.length :=
        storeSet_length_of_present c.cache k _ (by rw [hg]; rfl)
      have hrem := storeRemove_length_of_present
        (storeSet c.cache k ⟨e.response, e.hitTTL - 1⟩) k
        (by rw [storeGet_storeSet_self]; rfl)
      simp only [List.length_append, List.length_cons, List.length_nil]
      omega

theorem evict_eq_none_iff (c : InMemoryResponseCache K V) :
    evict c = none ↔ (c.evictionPolicy = "lru" ∧ c.cache = []) := by
  unfold evict
  by_cases h1 : c.evictionPolicy = "entire"
  · have : c.evictionPolicy ≠ "lru" := by rw [h1]; decide
    simp [h1, this]
  · by_cases h2 : c.evictionPolicy = "lru"
    · cases hc : c.cache <;> simp [h1, h2, hc]
    · simp [h1, h2]

theorem evict_length_le (c c2 : InMemoryResponseCache K V) (h : evict c = some c2) :
    c2.cache.length ≤ c.cache.length := by
  unfold evict at h
  split_ifs at h with h1 h2
  · cases h; simp
  · cases hc : c.cache with
    | nil => rw [hc] at h; exact absurd h (by simp)
    | cons p rest =>
        rw [hc] at h
        cases h
        simp [hc]
  · cases h; exact le_refl _

theorem evict_config (c c2 : InMemoryResponseCache K V) (h : evict c = some c2) :
    c2.cacheSizeLimit = c.cacheSizeLimit ∧ c2.evictionPolicy = c.evictionPolicy ∧
      c2.hitTTL = c.hitTTL := by
  unfold evict at h
  split_ifs at h with h1 h2
  · cases h; exact ⟨rfl, rfl, rfl⟩
  · cases hc : c.cache with
    | nil => rw [hc] at h; exact absurd h (by simp)
    | cons p rest => rw [hc] at h; cases h; exact ⟨rfl, rfl, rfl⟩
  · cases h; exact ⟨rfl, rfl, rfl⟩

theorem evict_isSome_of_ne_nil (c : InMemoryResponseCache K V) (h : c.cache ≠ []) :
    (evict c).isSome := by
  cases he : evict c with
  | none => exact absurd ((evict_eq_none_iff c).mp he).2 h
  | some c2 => rfl

theorem cacheResponse_isSome [DecidableEq K] (c : InMemoryResponseCache K V) (k : K) (v : V) :
    (cacheResponse c k v).isSome := by
  unfold cacheResponse
  by_cases h0 : c.cacheSizeLimit = 0
  · simp [h0]
  · by_cases hf : c.cache.length ≥ c.cacheSizeLimit
    · have hne : c.cache ≠ [] := by
        intro hnil
        rw [hnil] at hf
        simp at hf
        omega
      have := evict_isSome_of_ne_nil c hne
      cases he : evict c with
      | none => rw [he] at this; exact absurd this (by simp)
      | some c2 => simp [h0, hf, he]
    · simp [h0, hf]

theorem cleanerStep_isSome (c : InMemoryResponseCache K V) : (cleanerStep c).isSome := by
  unfold cleanerStep
  by_cases h : getCacheSize c = 0
  · simp [h]
  · have hne : c.cache ≠ [] := by
      intro hnil
      exact h (by simp [getCacheSize, hnil])
    simp only [h, if_false]
    exact evict_isSome_of_ne_nil c hne

/-- **C1** (amended): `get_cached_response` on a present key always
decrements the entry's remaining hit count by exactly 1 — also when the
count is the negative "unlimited" sentinel, which merely becomes more
negative and hence still never reaches the expiry value `0` — and returns
the stored response. -/
theorem c1_get_decrements_unconditionally [DecidableEq K]
    (c : InMemoryResponseCache K V) (k : K) (e : CacheEntry V)
    (h : storeGet c.cache k = some e) :
    ∃ c2, getCachedResponse c k = some (c2, e.response) ∧
      storeGet c2.cache k = some ⟨e.response, e.hitTTL - 1⟩ := by
  refine ⟨_, getCachedResponse_spec c k e h, ?_⟩
  rw [storeGet_storeMoveToEnd_self, storeGet_storeSet_self]

/-- Witness for C1's amended theorem at a concrete input. -/
theorem c1_get_decrements_unconditionally_witness :
    ∃ c2, getCachedResponse
        (⟨[(0, ⟨7, 3⟩)], 10, "lru", 3⟩ : InMemoryResponseCache Nat Nat) 0 =
        some (c2, 7) ∧
      storeGet c2.cache 0 = some ⟨7, 2⟩ :=
  c1_get_decrements_unconditionally
    (⟨[(0, ⟨7, 3⟩)], 10, "lru", 3⟩ : InMemoryResponseCache Nat Nat) 0 ⟨7, 3⟩ (by decide)

/-- **C1** counterexample to the claim as stated: on an entry whose
remaining hit count is the unlimited sentinel `-1`, `get_cached_response`
does perform a decrement — the stored count afterwards is `-2`, not the
unchanged `-1` the claim asserts. -/
theorem c1_sentinel_decrement_counterexample :
    (getCachedResponse
        (⟨[(0, ⟨7, -1⟩)], 10, "lru", -1⟩ : InMemoryResponseCache Nat Nat) 0).map
        (fun p => storeGet p.1.cache 0) = some (some ⟨7, -2⟩) ∧
    (getCachedResponse
        (⟨[(0, ⟨7, -1⟩)], 10, "lru", -1⟩ : InMemoryResponseCache Nat Nat) 0).map
        (fun p => storeGet p.1.cache 0) ≠ some (some ⟨7, -1⟩) := by
  constructor
  · rfl
  · decide

/-- **C10**: `evict` under policy `"lru"` removes the least-recently-used
item and fails (`KeyError`, modelled as `none`) exactly on an empty store
under `"lru"`; the failing branch is unreachable from the program's call
sites: `cache_response` always succeeds (it evicts only when the entry
count is at least the nonzero size limit), and the periodic cleaner's step
always succeeds (it calls `evict` only on a nonempty cache). -/
theorem c10_evict_failure_unreachable [DecidableEq K]
    (c : InMemoryResponseCache K V) (k : K) (v : V) :
    (evict c = none ↔ (c.evictionPolicy = "lru" ∧ c.cache = []))
    ∧ (c.evictionPolicy = "lru" → ∀ p rest, c.cache = p :: rest →
        evict c = some { c with cache := rest })
    ∧ (cacheResponse c k v).isSome
    ∧ (cleanerStep c).isSome := by
  refine ⟨evict_eq_none_iff c, ?_, cacheResponse_isSome c k v, cleanerStep_isSome c⟩
  intro hpol p rest hc
  unfold evict
  have h1 : c.evictionPolicy ≠ "entire" := by rw [hpol]; decide
  rw [if_neg h1, if_pos hpol, hc]

/-- Witness for C10 at a concrete cache state. -/
theorem c10_evict_failure_unreachable_witness :
    (evict (⟨[(0, ⟨1, 2⟩)], 1, "lru", 2⟩ : InMemoryResponseCache Nat Nat) = none ↔
      ((⟨[(0, ⟨1, 2⟩)], 1, "lru", 2⟩ : InMemoryResponseCache Nat Nat).evictionPolicy = "lru" ∧
        (⟨[(0, ⟨1, 2⟩)], 1, "lru", 2⟩ : InMemoryResponseCache Nat Nat).cache = []))
    ∧ ((⟨[(0, ⟨1, 2⟩)], 1, "lru", 2⟩ : InMemoryResponseCache Nat Nat).evictionPolicy = "lru" →
        ∀ p rest,
          (⟨[(0, ⟨1, 2⟩)], 1, "lru", 2⟩ : InMemoryResponseCache Nat Nat).cache = p :: rest →
          evict (⟨[(0, ⟨1, 2⟩)], 1, "lru", 2⟩ : InMemoryResponseCache Nat Nat) =
            some { (⟨[(0, ⟨1, 2⟩)], 1, "lru", 2⟩ : InMemoryResponseCache Nat Nat) with
                     cache := rest })
    ∧ (cacheResponse (⟨[(0, ⟨1, 2⟩)], 1, "lru", 2⟩ : InMemoryResponseCache Nat Nat) 0 5).isSome
    ∧ (cleanerStep (⟨[(0, ⟨1, 2⟩)], 1, "lru", 2⟩ : InMemoryResponseCache Nat Nat)).isSome :=
  c10_evict_failure_unreachable
    (⟨[(0, ⟨1, 2⟩)], 1, "lru", 2⟩ : InMemoryResponseCache Nat Nat) 0 5

/-! ### Operation sequences over the cache (for the size invariant) -/

/-- The public operations of `InMemoryResponseCache`, for quantifying over
arbitrary call sequences. -/
inductive CacheOp (K V : Type) where
  | put : K → V → CacheOp K V
  | get : K → CacheOp K V
  | has : K → CacheOp K V
  | remove : K → CacheOp K V
  | evictNow : CacheOp K V
deriving Repr, DecidableEq

/-- Execute one operation; an operation that raises in Python leaves the
store in its pre-state, which is the state this function returns. -/
def execOp [DecidableEq K] (c : InMemoryResponseCache K V) :
    CacheOp K V → InMemoryResponseCache K V
  | .put k v => (cacheResponse c k v).getD c
  | .get k =>
      match getCachedResponse c k with
      | none => c
      | some (c2, _) => c2
  | .has k => (hasCachedResponse c k).1
  | .remove k => removeFromCache c k
  | .evictNow => (evict c).getD c

/-- Execute a sequence of operations from a starting state. -/
def runOps [DecidableEq K] (c : InMemoryResponseCache K V)
    (ops : List (CacheOp K V)) : InMemoryResponseCache K V :=
  ops.foldl execOp c

theorem cacheResponse_config [DecidableEq K] (c c2 : InMemoryResponseCache K V)
    (k : K) (v : V) (h : cacheResponse c k v = some c2) :
    c2.cacheSizeLimit = c.cacheSizeLimit ∧ c2.evictionPolicy = c.evictionPolicy ∧
      c2.hitTTL = c.hitTTL := by
  unfold cacheResponse at h
  split_ifs at h with h0 h1
  · cases h; exact ⟨rfl, rfl, rfl⟩
  · cases he : evict c with
    | none => rw [he] at h; exact absurd h (by simp)
    | some c3 =>
        rw [he] at h
        cases h
        exact evict_config c c3 he
  · cases h; exact ⟨rfl, rfl, rfl⟩

theorem getCachedResponse_config [DecidableEq K] (c c2 : InMemoryResponseCache K V)
    (k : K) (v : V) (h : getCachedResponse c k = some (c2, v)) :
    c2.cacheSizeLimit = c.cacheSizeLimit ∧ c2.evictionPolicy = c.evictionPolicy ∧
      c2.hitTTL = c.hitTTL := by
  unfold getCachedResponse at h
  cases hg : storeGet c.cache k with
  | none => rw [hg] at h; exact absurd h (by simp)
  | some e =>
      rw [hg] at h
      simp only [Option.some.injEq, Prod.mk.injEq] at h
      rw [← h.1]
      exact ⟨rfl, rfl, rfl⟩

theorem execOp_config [DecidableEq K] (c : InMemoryResponseCache K V) (op : CacheOp K V) :
    (execOp c op).cacheSizeLimit = c.cacheSizeLimit ∧
      (execOp c op).evictionPolicy = c.evictionPolicy ∧
      (execOp c op).hitTTL = c.hitTTL := by
  cases op with
  | put k v =>
      cases h : cacheResponse c k v with
      | none => simp [execOp, h]
      | some c2 =>
          have hc := cacheResponse_config c c2 k v h
          simp [execOp, h, hc.1, hc.2.1, hc.2.2]
  | get k =>
      cases h : getCachedResponse c k with
      | none => simp [execOp, h]
      | some p =>
          obtain ⟨c2, v⟩ := p
          have hc := getCachedResponse_config c c2 k v h
          simp [execOp, h, hc.1, hc.2.1, hc.2.2]
  | has k =>
      unfold execOp hasCachedResponse
      cases hg : storeGet c.cache k with
      | none => simp [hg]
      | some e =>
          by_cases hz : e.hitTTL = 0 <;> simp [hg, hz]
  | remove k => exact ⟨rfl, rfl, rfl⟩
  | evictNow =>
      cases h : evict c with
      | none => simp [execOp, h]
      | some c2 =>
          have hc := evict_config c c2 h
          simp [execOp, h, hc.1, hc.2.1, hc.2.2]

theorem hasCachedResponse_length_le [DecidableEq K] (c : InMemoryResponseCache K V)
    (k : K) : (hasCachedResponse c k).1.cache.length ≤ c.cache.length := by
  unfold hasCachedResponse
  cases storeGet c.cache k with
  | none => exact le_refl _
  | some e =>
      by_cases hz : e.hitTTL = 0
      · simp only [hz, if_pos rfl]
        exact storeRemove_length_le c.cache k
      · simp [hz]

theorem execOp_length_le [DecidableEq K] (c : InMemoryResponseCache K V)
    (op : CacheOp K V)
    (hpol : c.evictionPolicy = "entire" ∨ c.evictionPolicy = "lru")
    (hinv : c.cache.length ≤ c.cacheSizeLimit) :
    (execOp c op).cache.length ≤ c.cacheSizeLimit := by
  cases op with
  | put k v =>
      show ((cacheResponse c k v).getD c).cache.length ≤ _
      unfold cacheResponse
      by_cases h0 : c.cacheSizeLimit = 0
      · simpa [h0] using hinv
      · by_cases hf : c.cache.length ≥ c.cacheSizeLimit
        · cases he : evict c with
          | none => simp [h0, hf, he]; exact hinv
          | some c2 =>
              simp only [h0, if_false, hf, if_pos rfl, he, Option.getD_some]
              have hev := evict_length_le c c2 he
              have heq : c.cache.length = c.cacheSizeLimit := le_antisymm hinv hf
              have hc2 : c2.cache.length ≤ c.cacheSizeLimit := le_trans hev hinv
              -- the evicted state is strictly below the limit
              have hstrict : c2.cache.length + 1 ≤ c.cacheSizeLimit := by
                unfold evict at he
                split_ifs at he with h1 h2
                · cases he; simp; omega
                · cases hc : c.cache with
                  | nil =>
                      rw [hc] at heq
                      simp at heq
                      omega
                  | cons p rest =>
                      rw [hc] at he
                      cases he
                      have : (p :: rest).length = c.cacheSizeLimit := by
                        rw [← hc, heq]
                      simp at this
                      simp
                      omega
                · rcases hpol with hp | hp
                  · exact absurd hp h1
                  · exact absurd hp h2
              have := storeSet_length_le c2.cache k ⟨v, c.hitTTL⟩
              simpa using le_trans this hstrict
        · simp only [h0, if_false, hf, if_false, Option.getD_some]
          have := storeSet_length_le c.cache k ⟨v, c.hitTTL⟩
          simp only [ge_iff_le, not_le] at hf
          simpa using le_trans this (by omega)
  | get k =>
      show (match getCachedResponse c k with
        | none => c
        | some (c2, _) => c2).cache.length ≤ _
      cases h : getCachedResponse c k with
      | none => exact hinv
      | some p =>
          obtain ⟨c2, v⟩ := p
          exact le_trans (getCachedResponse_length_le c c2 k v h) hinv
  | has k => exact le_trans (hasCachedResponse_length_le c k) hinv
  | remove k => exact le_trans (storeRemove_length_le c.cache k) hinv
  | evictNow =>
      show ((evict c).getD c).cache.length ≤ _
      cases h : evict c with
      | none => simpa using hinv
      | some c2 => simpa using le_trans (evict_length_le c c2 h) hinv

theorem runOps_length_le [DecidableEq K] (limit : Nat) (policy : String)
    (hpol : policy = "entire" ∨ policy = "lru") (ops : List (CacheOp K V)) :
    ∀ c : InMemoryResponseCache K V, c.cacheSizeLimit = limit →
      c.evictionPolicy = policy → c.cache.length ≤ limit →
      (runOps c ops).cache.length ≤ limit := by
  induction ops with
  | nil => intro c hl hp hi; simpa [runOps] using hi
  | cons op rest ih =>
      intro c hl hp hi
      have hcfg := execOp_config c op
      have hstep := execOp_length_le c op (by rw [hp]; exact hpol) (by rw [hl]; exact hi)
      show (runOps (execOp c op) rest).cache.length ≤ limit
      exact ih (execOp c op) (by rw [hcfg.1, hl]) (by rw [hcfg.2.1, hp])
        (by rw [hl] at hstep; exact hstep)

theorem cacheResponse_nonePolicy_append [DecidableEq K]
    (c : InMemoryResponseCache K V) (k : K) (v : V)
    (hpol : c.evictionPolicy = "none") (hlim : 1 ≤ c.cacheSizeLimit)
    (habs : storeGet c.cache k = none) :
    cacheResponse c k v = some { c with cache := c.cache ++ [(k, ⟨v, c.hitTTL⟩)] } := by
  have h0 : c.cacheSizeLimit ≠ 0 := by omega
  have hev : evict c = some c := by
    unfold evict
    have h1 : c.evictionPolicy ≠ "entire" := by rw [hpol]; decide
    have h2 : c.evictionPolicy ≠ "lru" := by rw [hpol]; decide
    rw [if_neg h1, if_neg h2]
  unfold cacheResponse
  rw [if_neg h0]
  by_cases hf : c.cache.length ≥ c.cacheSizeLimit
  · rw [if_pos hf, hev]
    show some { c with cache := storeSet c.cache k ⟨v, c.hitTTL⟩ } = _
    rw [storeSet_append_of_absent c.cache k _ habs]
  · rw [if_neg hf]
    show some { c with cache := storeSet c.cache k ⟨v, c.hitTTL⟩ } = _
    rw [storeSet_append_of_absent c.cache k _ habs]

/-- Sequences of `put` operations with the distinct keys `0, …, n-1`. -/
def natPuts (n : Nat) : List (CacheOp Nat Nat) :=
  (List.range n).map (fun i => CacheOp.put i 0)

theorem runOps_natPuts (limit : Nat) (ttl : Int) (hlim : 1 ≤ limit) (n : Nat) :
    runOps (⟨[], limit, "none", ttl⟩ : InMemoryResponseCache Nat Nat) (natPuts n) =
      ⟨(List.range n).map (fun i => (i, ⟨0, ttl⟩)), limit, "none", ttl⟩ := by
  induction n with
  | zero => rfl
  | succ m ih =>
      have hsplit : natPuts (m + 1) = natPuts m ++ [CacheOp.put m 0] := by
        unfold natPuts
        rw [List.range_succ, List.map_append]
        rfl
      rw [hsplit]
      unfold runOps
      rw [List.foldl_append]
      have ih2 : List.foldl execOp
          (⟨[], limit, "none", ttl⟩ : InMemoryResponseCache Nat Nat) (natPuts m) =
          ⟨(List.range m).map (fun i => (i, ⟨0, ttl⟩)), limit, "none", ttl⟩ := ih
      rw [ih2]
      set cm : InMemoryResponseCache Nat Nat :=
        ⟨(List.range m).map (fun i => (i, ⟨0, ttl⟩)), limit, "none", ttl⟩ with hcm
      have habs : storeGet cm.cache m = none := by
        apply storeGet_of_absent
        intro p hp
        rw [hcm] at hp
        simp only [List.mem_map, List.mem_range] at hp
        obtain ⟨i, hi, hip⟩ := hp
        rw [← hip]
        simp
        omega
      have hput := cacheResponse_nonePolicy_append cm m 0 rfl hlim habs
      show List.foldl execOp cm [CacheOp.put m 0] = _
      simp only [List.foldl_cons, List.foldl_nil]
      show execOp cm (CacheOp.put m 0) = _
      simp only [execOp, hput, Option.getD_some]
      simp [List.range_succ]

/-- **C2**: starting from an empty cache, under eviction policy `"entire"`
or `"lru"` the number of stored entries never exceeds `size_limit` for any
sequence of operations (every intermediate state is `runOps` of a prefix,
so the bound at all `ops` covers every moment); under policy `"none"` the
count is unbounded: whenever `size_limit ≥ 1`, for every `N` some sequence
of `cache_response` calls drives the entry count to exactly `N`. -/
theorem c2_size_bound_and_none_unbounded (limit : Nat) (ttl : Int) :
    (∀ policy, (policy = "entire" ∨ policy = "lru") →
      ∀ ops : List (CacheOp Nat Nat),
        (runOps (⟨[], limit, policy, ttl⟩ : InMemoryResponseCache Nat Nat) ops).cache.length
          ≤ limit)
    ∧ (1 ≤ limit → ∀ N : Nat, ∃ ops : List (CacheOp Nat Nat),
        (runOps (⟨[], limit, "none", ttl⟩ : InMemoryResponseCache Nat Nat) ops).cache.length
          = N) := by
  constructor
  · intro policy hpol ops
    exact runOps_length_le limit policy hpol ops _ rfl rfl (by simp)
  · intro hlim N
    refine ⟨natPuts N, ?_⟩
    rw [runOps_natPuts limit ttl hlim N]
    simp

/-- Witness for C2 at concrete parameters. -/
theorem c2_size_bound_and_none_unbounded_witness :
    (runOps (⟨[], 2, "lru", 5⟩ : InMemoryResponseCache Nat Nat)
        [CacheOp.put 0 0, CacheOp.put 1 1, CacheOp.put 2 2]).cache.length ≤ 2
    ∧ ∃ ops : List (CacheOp Nat Nat),
        (runOps (⟨[], 2, "none", 5⟩ : InMemoryResponseCache Nat Nat) ops).cache.length = 3 :=
  ⟨(c2_size_bound_and_none_unbounded 2 5).1 "lru" (Or.inr rfl)
      [CacheOp.put 0 0, CacheOp.put 1 1, CacheOp.put 2 2],
    (c2_size_bound_and_none_unbounded 2 5).2 (by decide) 3⟩

/-! ### Hit-TTL exhaustion (C3) -/

/-- One round of the proxy's hit path: `has_cached_response` must report a
hit, then `get_cached_response` is called; `none` when the `has` call
reports a miss. -/
def hasThenGet [DecidableEq K] (c : InMemoryResponseCache K V) (k : K) :
    Option (InMemoryResponseCache K V) :=
  match hasCachedResponse c k with
  | (c1, true) =>
      match getCachedResponse c1 k with
      | none => none
      | some (c2, _) => some c2
  | (_, false) => none

/-- `n` successive rounds of `hasThenGet`. -/
def hasThenGetN [DecidableEq K] :
    Nat → InMemoryResponseCache K V → K → Option (InMemoryResponseCache K V)
  | 0, c, _ => some c
  | n + 1, c, k =>
      match hasThenGet c k with
      | none => none
      | some c2 => hasThenGetN n c2 k

theorem hasThenGet_step [DecidableEq K] (c : InMemoryResponseCache K V) (k : K)
    (e : CacheEntry V) (h : storeGet c.cache k = some e) (hne : e.hitTTL ≠ 0) :
    ∃ c2, hasThenGet c k = some c2 ∧
      storeGet c2.cache k = some ⟨e.response, e.hitTTL - 1⟩ := by
  have h1 : hasThenGet c k = (match getCachedResponse c k with
      | none => none
      | some (c2, _) => some c2) := by
    unfold hasThenGet
    rw [hasCachedResponse_hit c k e h hne]
  rw [h1, getCachedResponse_spec c k e h]
  exact ⟨_, rfl, by rw [storeGet_storeMoveToEnd_self, storeGet_storeSet_self]⟩

theorem hasThenGetN_exhaust [DecidableEq K] :
    ∀ (m : Nat) (c : InMemoryResponseCache K V) (k : K) (e : CacheEntry V),
      storeGet c.cache k = some e → e.hitTTL = (m : Int) + 1 →
      ∃ c2, hasThenGetN (m + 1) c k = some c2 ∧
        storeGet c2.cache k = some ⟨e.response, 0⟩ := by
  intro m
  induction m with
  | zero =>
      intro c k e h httl
      obtain ⟨c2, hstep, hentry⟩ := hasThenGet_step c k e h (by rw [httl]; decide)
      refine ⟨c2, ?_, ?_⟩
      · show (match hasThenGet c k with
          | none => none
          | some c2 => hasThenGetN 0 c2 k) = some c2
        rw [hstep]
        rfl
      · rw [hentry, httl]
        norm_num
  | succ m ih =>
      intro c k e h httl
      have hne : e.hitTTL ≠ 0 := by rw [httl]; intro hc; omega
      obtain ⟨c2, hstep, hentry⟩ := hasThenGet_step c k e h hne
      have httl2 : (⟨e.response, e.hitTTL - 1⟩ : CacheEntry V).hitTTL = (m : Int) + 1 := by
        show e.hitTTL - 1 = (m : Int) + 1
        rw [httl]
        push_cast
        ring
      obtain ⟨c3, hrun, hfinal⟩ := ih c2 k ⟨e.response, e.hitTTL - 1⟩ hentry httl2
      refine ⟨c3, ?_, hfinal⟩
      show (match hasThenGet c k with
        | none => none
        | some c2 => hasThenGetN (m + 1) c2 k) = some c3
      rw [hstep]
      exact hrun

theorem cacheResponse_sets_entry [DecidableEq K] (c c1 : InMemoryResponseCache K V)
    (k : K) (v : V) (h0 : c.cacheSizeLimit ≠ 0)
    (h : cacheResponse c k v = some c1) :
    storeGet c1.cache k = some ⟨v, c.hitTTL⟩ := by
  unfold cacheResponse at h
  rw [if_neg h0] at h
  cases he : (if c.cache.length ≥ c.cacheSizeLimit then evict c else some c) with
  | none => rw [he] at h; exact absurd h (by simp)
  | some c2 =>
      rw [he] at h
      cases h
      exact storeGet_storeSet_self c2.cache k ⟨v, c.hitTTL⟩

/-- **C3**: after `cache_response(k, v)` on a cache with `hit_ttl = n > 0`
and a positive size limit, exactly `n` rounds of a `has_cached_response`
hit followed by `get_cached_response(k)` succeed, after which
`has_cached_response(k)` reports a miss and that final `has` call removes
the expired entry from the store. -/
theorem c3_ttl_exhaustion [DecidableEq K] (c : InMemoryResponseCache K V)
    (k : K) (v : V) (n : Nat) (hn : 0 < n) (httl : c.hitTTL = (n : Int))
    (hlim : 0 < c.cacheSizeLimit) :
    ∃ c1, cacheResponse c k v = some c1 ∧
    ∃ c2, hasThenGetN n c1 k = some c2 ∧
      hasCachedResponse c2 k = ({ c2 with cache := storeRemove c2.cache k }, false) ∧
      storeGet (hasCachedResponse c2 k).1.cache k = none := by
  have h0 : c.cacheSizeLimit ≠ 0 := by omega
  cases hc1 : cacheResponse c k v with
  | none =>
      have := cacheResponse_isSome c k v
      rw [hc1] at this
      exact absurd this (by simp)
  | some c1 =>
      refine ⟨c1, rfl, ?_⟩
      have hentry : storeGet c1.cache k = some ⟨v, c.hitTTL⟩ :=
        cacheResponse_sets_entry c c1 k v h0 hc1
      obtain ⟨m, rfl⟩ : ∃ m, n = m + 1 := ⟨n - 1, by omega⟩
      have httl2 : (⟨v, c.hitTTL⟩ : CacheEntry V).hitTTL = (m : Int) + 1 := by
        show c.hitTTL = (m : Int) + 1
        rw [httl]
        push_cast
        ring
      obtain ⟨c2, hrun, hfinal⟩ := hasThenGetN_exhaust m c1 k ⟨v, c.hitTTL⟩ hentry httl2
      refine ⟨c2, hrun, ?_, ?_⟩
      · exact hasCachedResponse_expired c2 k ⟨v, 0⟩ hfinal rfl
      · rw [hasCachedResponse_expired c2 k ⟨v, 0⟩ hfinal rfl]
        exact storeGet_storeRemove_self c2.cache k

/-- Witness for C3 at a concrete input: `hit_ttl = 2`, two hits, then a
miss that deletes the entry. -/
theorem c3_ttl_exhaustion_witness :
    ∃ c1, cacheResponse (⟨[], 10, "lru", 2⟩ : InMemoryResponseCache Nat Nat) 5 7 = some c1 ∧
    ∃ c2, hasThenGetN 2 c1 5 = some c2 ∧
      hasCachedResponse c2 5 = ({ c2 with cache := storeRemove c2.cache 5 }, false) ∧
      storeGet (hasCachedResponse c2 5).1.cache 5 = none :=
  c3_ttl_exhaustion (⟨[], 10, "lru", 2⟩ : InMemoryResponseCache Nat Nat) 5 7 2
    (by decide) (by decide) (by decide)

/-! ### LRU recency (C4) -/

/-- **C4**: with distinct keys `k1, k2, …` filling an `"lru"` cache to its
size limit, `get_cached_response(k1)` moves `k1` to the most-recently-used
end (the iteration order becomes `k2, …, k1`, least-recently-read first),
and the next `cache_response(k_new)` evicts `k2` — the least-recently-used
entry — not `k1`: afterwards `k1` is still stored and `k2` is gone, with
iteration order `…, k1, k_new`. -/
theorem c4_lru_recency [DecidableEq K] (k1 k2 knew : K) (e1 e2 : CacheEntry V)
    (rest : Store K V) (vnew : V) (ttl : Int)
    (h21 : k2 ≠ k1) (h1r : ∀ p ∈ rest, p.1 ≠ k1) (h2r : ∀ p ∈ rest, p.1 ≠ k2)
    (hn1 : knew ≠ k1) (hn2 : knew ≠ k2) (hnr : ∀ p ∈ rest, p.1 ≠ knew) :
    ∃ c1, getCachedResponse
        (⟨(k1, e1) :: (k2, e2) :: rest, rest.length + 2, "lru", ttl⟩ :
          InMemoryResponseCache K V) k1 = some (c1, e1.response) ∧
      c1.cache.map Prod.fst = k2 :: (rest.map Prod.fst ++ [k1]) ∧
      ∃ c2, cacheResponse c1 knew vnew = some c2 ∧
        c2.cache.map Prod.fst = rest.map Prod.fst ++ [k1, knew] ∧
        (storeGet c2.cache k1).isSome ∧ storeGet c2.cache k2 = none := by
  have he1x : ∀ x : CacheEntry V, x = ⟨x.response, x.hitTTL⟩ := fun x => rfl
  set e1' : CacheEntry V := ⟨e1.response, e1.hitTTL - 1⟩ with he1'
  set c0 : InMemoryResponseCache K V :=
    ⟨(k1, e1) :: (k2, e2) :: rest, rest.length + 2, "lru", ttl⟩ with hc0
  have hget0 : storeGet c0.cache k1 = some e1 := by
    show storeGet ((k1, e1) :: (k2, e2) :: rest) k1 = some e1
    simp [storeGet]
  have hsets : storeSet c0.cache k1 e1' = (k1, e1') :: (k2, e2) :: rest := by
    show storeSet ((k1, e1) :: (k2, e2) :: rest) k1 e1' = _
    simp [storeSet]
  have hremr : storeRemove rest k1 = rest := storeRemove_of_absent rest k1 h1r
  have hrem : storeRemove ((k1, e1') :: (k2, e2) :: rest) k1 = (k2, e2) :: rest := by
    simp [storeRemove, h21, hremr]
  have hmte : storeMoveToEnd ((k1, e1') :: (k2, e2) :: rest) k1 =
      (k2, e2) :: (rest ++ [(k1, e1')]) := by
    unfold storeMoveToEnd
    rw [show storeGet ((k1, e1') :: (k2, e2) :: rest) k1 = some e1' by simp [storeGet]]
    rw [hrem]
    simp
  set c1 : InMemoryResponseCache K V :=
    ⟨(k2, e2) :: (rest ++ [(k1, e1')]), rest.length + 2, "lru", ttl⟩ with hc1
  have hg : getCachedResponse c0 k1 = some (c1, e1.response) := by
    rw [getCachedResponse_spec c0 k1 e1 hget0]
    rw [← he1', hsets, hmte]
  refine ⟨c1, hg, by simp [hc1], ?_⟩
  have hev : evict c1 =
      some ⟨rest ++ [(k1, e1')], rest.length + 2, "lru", ttl⟩ := by
    unfold evict
    have hne : c1.evictionPolicy ≠ "entire" := by
      show ("lru" : String) ≠ "entire"
      decide
    have hlru : c1.evictionPolicy = "lru" := rfl
    rw [if_neg hne, if_pos hlru]
  have habs : storeGet (rest ++ [(k1, e1')]) knew = none := by
    apply storeGet_of_absent
    intro p hp
    rcases List.mem_append.mp hp with hp | hp
    · exact hnr p hp
    · simp only [List.mem_singleton] at hp
      rw [hp]
      exact fun hcontra => hn1 hcontra.symm
  have hput : cacheResponse c1 knew vnew =
      some ⟨rest ++ [(k1, e1'), (knew, ⟨vnew, ttl⟩)], rest.length + 2, "lru", ttl⟩ := by
    unfold cacheResponse
    have h0 : c1.cacheSizeLimit ≠ 0 := by
      show rest.length + 2 ≠ 0
      omega
    rw [if_neg h0]
    have hf : c1.cache.length ≥ c1.cacheSizeLimit := by
      show ((k2, e2) :: (rest ++ [(k1, e1')])).length ≥ rest.length + 2
      simp
    rw [if_pos hf, hev]
    show some ({ cache := storeSet (rest ++ [(k1, e1')]) knew ⟨vnew, c1.hitTTL⟩, cacheSizeLimit := rest.length + 2, evictionPolicy := "lru", hitTTL := ttl } : InMemoryResponseCache K V) = _
    rw [storeSet_append_of_absent _ _ _ habs]
    simp
  refine ⟨_, hput, by simp, ?_, ?_⟩
  · show (storeGet (rest ++ [(k1, e1'), (knew, ⟨vnew, ttl⟩)]) k1).isSome
    rw [storeGet_append_of_none rest _ k1 (storeGet_of_absent rest k1 h1r)]
    simp [storeGet]
  · show storeGet (rest ++ [(k1, e1'), (knew, ⟨vnew, ttl⟩)]) k2 = none
    apply storeGet_of_absent
    intro p hp
    rcases List.mem_append.mp hp with hp | hp
    · exact h2r p hp
    · simp only [List.mem_cons, List.not_mem_nil, or_false] at hp
      rcases hp with hp | hp
      · rw [hp]
        exact fun hcontra => h21 hcontra.symm
      · rw [hp]
        exact fun hcontra => hn2 hcontra

/-- Witness for C4 at a concrete three-entry cache. -/
theorem c4_lru_recency_witness :
    ∃ c1, getCachedResponse
        (⟨[(1, ⟨10, 5⟩), (2, ⟨20, 5⟩), (3, ⟨30, 5⟩)], 3, "lru", 5⟩ :
          InMemoryResponseCache Nat Nat) 1 = some (c1, 10) ∧
      c1.cache.map Prod.fst = [2, 3, 1] ∧
      ∃ c2, cacheResponse c1 9 40 = some c2 ∧
        c2.cache.map Prod.fst = [3, 1, 9] ∧
        (storeGet c2.cache 1).isSome ∧ storeGet c2.cache 2 = none :=
  c4_lru_recency 1 2 9 ⟨10, 5⟩ ⟨20, 5⟩ [(3, ⟨30, 5⟩)] 40 5
    (by decide) (by decide) (by decide) (by decide) (by decide) (by decide)

/-! ## HTTP header model — `src/caching_proxy/http/message.py`

Raw header blocks are modelled as decoded text (`List Char`); the UTF-8
`decode(errors="replace")` / `encode` steps of the source are mutually
inverse on decoded text, so they are identities on this representation.
The source manipulates decoded `str` values, so `str.lower`,
`str.capitalize`, `str.strip` and the regex classes `\w`/`\s` follow the
Unicode tables; the functions below reproduce those tables exactly on
the Basic Latin and Latin-1 Supplement blocks (U+0000–U+00FF), the
alphabet of every statement in this file.  Beyond U+00FF the model
treats characters as caseless non-word non-space characters — a stated
boundary, and the reason the round-trip theorem below carries an ASCII
hypothesis while the case-mapping counterexample stays inside
Latin-1. -/

/-- The whitespace of Python's `str.strip` and regex `\s`, exact on
U+0000–U+00FF: tab–carriage-return (9–13), the information separators
(28–31), space (32), next line (U+0085) and no-break space (U+00A0). -/
def isWS (c : Char) : Bool :=
  decide ((9 ≤ c.toNat ∧ c.toNat ≤ 13) ∨ (28 ≤ c.toNat ∧ c.toNat ≤ 32) ∨
    c.toNat = 133 ∨ c.toNat = 160)

/-- `str.strip()`: drop whitespace from both ends. -/
def stripWS (l : List Char) : List Char :=
  ((l.dropWhile isWS).reverse.dropWhile isWS).reverse

/-- Python `str.split(sep)` with a one-character separator. -/
def splitOnChar (sep : Char) : List Char → List (List Char)
  | [] => [[]]
  | c :: rest =>
      if c = sep then [] :: splitOnChar sep rest
      else
        match splitOnChar sep rest with
        | [] => [[c]]
        | w :: ws => (c :: w) :: ws

/-- Python `sep.join(parts)` with a one-character separator. -/
def joinWithChar (sep : Char) : List (List Char) → List Char
  | [] => []
  | [w] => w
  | w :: ws => w ++ sep :: joinWithChar sep ws

/-- Python `str.lower()` on one character, exact on U+0000–U+00FF:
`A`–`Z` and the Latin-1 capitals `À`–`Þ` (U+00D7 `×` excepted) move down
one case bank; every other character of the two blocks — including
`ß`, whose lower case is itself — is returned unchanged.  Above U+00FF
the map is the identity: the model's boundary. -/
def pyLower (c : Char) : Char :=
  if (65 ≤ c.toNat ∧ c.toNat ≤ 90) ∨
      (192 ≤ c.toNat ∧ c.toNat ≤ 222 ∧ c.toNat ≠ 215) then
    Char.ofNat (c.toNat + 32)
  else c

/-- The titlecase mapping applied by Python `str.capitalize()` to the
first character, exact on U+0000–U+00FF: `a`–`z` and the Latin-1 small
letters `à`–`þ` (U+00F7 `÷` excepted) move up one case bank, the micro
sign `µ` titlecases to Greek `Μ` (U+039C), `ß` expands to the two-letter
`Ss`, and `ÿ` maps to `Ÿ` (U+0178); every other character of the two
blocks stays put.  Above U+00FF the map is the identity: the model's
boundary. -/
def pyTitle (c : Char) : List Char :=
  if (97 ≤ c.toNat ∧ c.toNat ≤ 122) ∨
      (224 ≤ c.toNat ∧ c.toNat ≤ 254 ∧ c.toNat ≠ 247) then
    [Char.ofNat (c.toNat - 32)]
  else if c.toNat = 181 then [Char.ofNat 924]
  else if c.toNat = 223 then ['S', 's']
  else if c.toNat = 255 then [Char.ofNat 376]
  else [c]

/-- `str.capitalize`: the first character titlecased (possibly growing,
as for `ß`), the rest lower-cased. -/
def capitalizeWord : List Char → List Char
  | [] => []
  | c :: rest => pyTitle c ++ rest.map pyLower

/-- `HTTPHeaders._normalize_header`: strip, split on `-`, lower-case each
word, join with `_`. -/
def normalizeHeader (l : List Char) : List Char :=
  joinWithChar '_' ((splitOnChar '-' (stripWS l)).map (List.map pyLower))

/-- `HTTPHeaders._format_header`: split on `_`, capitalize each word, join
with `-`. -/
def formatHeader (l : List Char) : List Char :=
  joinWithChar '-' ((splitOnChar '_' l).map capitalizeWord)

/-- `decoded.replace("\r\n", "\n")` (leftmost, non-overlapping). -/
def replaceCRLFwithLF : List Char → List Char
  | [] => []
  | [c] => [c]
  | c :: c2 :: rest =>
      if c = '\r' ∧ c2 = '\n' then '\n' :: replaceCRLFwithLF rest
      else c :: replaceCRLFwithLF (c2 :: rest)

/-- `HTTPHeaders._split_header_lines`. -/
def splitHeaderLines (decoded : List Char) : List (List Char) :=
  splitOnChar '\n' (replaceCRLFwithLF decoded)

/-- `unfolded[-1] += " " + line.strip()`: append to the last element;
`none` is the `IndexError` raised when the list is empty. -/
def appendToLast (x : List Char) : List (List Char) → Option (List (List Char))
  | [] => none
  | [w] => some [w ++ x]
  | w :: ws => (appendToLast x ws).map (fun ws2 => w :: ws2)

/-- The loop of `HTTPHeaders._unfold_lines` with its accumulator. -/
def unfoldLinesAux : List (List Char) → List (List Char) → Option (List (List Char))
  | acc, [] => some acc
  | acc, line :: rest =>
      if stripWS line = [] then unfoldLinesAux acc rest
      else if line.head? = some ' ' ∨ line.head? = some '\t' then
        match appendToLast (' ' :: stripWS line) acc with
        | none => none
        | some acc2 => unfoldLinesAux acc2 rest
      else unfoldLinesAux (acc ++ [line]) rest

/-- `HTTPHeaders._unfold_lines`. -/
def unfoldLines (lines : List (List Char)) : Option (List (List Char)) :=
  unfoldLinesAux [] lines

/-- Characters matched by the regex class `[\w\-]`, exact on
U+0000–U+00FF: `\w` is `[A-Za-z0-9_]` together with the Latin-1 word
characters — the ordinal indicators `ª` (170) and `º` (186), the
superscripts `²`/`³`/`¹` (178, 179, 185), the micro sign `µ` (181), the
vulgar fractions `¼`–`¾` (188–190) and the letters `À`–`ÿ` less `×`
(215) and `÷` (247) — plus the literal `-` (45).  Above U+00FF — where
Python's `\w` keeps matching letters — the model reports `false`: its
boundary, inside which every statement below stays. -/
def isNameChar (c : Char) : Bool :=
  decide ((65 ≤ c.toNat ∧ c.toNat ≤ 90) ∨ (97 ≤ c.toNat ∧ c.toNat ≤ 122) ∨
    (48 ≤ c.toNat ∧ c.toNat ≤ 57) ∨ c.toNat = 95 ∨ c.toNat = 45 ∨
    c.toNat = 170 ∨ c.toNat = 178 ∨ c.toNat = 179 ∨ c.toNat = 181 ∨
    c.toNat = 185 ∨ c.toNat = 186 ∨ (188 ≤ c.toNat ∧ c.toNat ≤ 190) ∨
    (192 ≤ c.toNat ∧ c.toNat ≤ 255 ∧ c.toNat ≠ 215 ∧ c.toNat ≠ 247))

/-- `re.search(r"([\w\-]+):\s*(.*)", line)` followed by `value.strip()`:
scan left to right for a position where a nonempty run of name characters
is immediately followed by `:`; return the run and the stripped remainder
of the line.  (`\s*(.*)` takes the whole rest of the line — lines contain
no newline — and `.strip()` then removes surrounding whitespace, so the
captured value is the stripped remainder.) -/
def searchHeader : List Char → Option (List Char × List Char)
  | [] => none
  | c :: rest =>
      if isNameChar c then
        match (c :: rest).dropWhile isNameChar with
        | ':' :: rest2 => some ((c :: rest).takeWhile isNameChar, stripWS rest2)
        | _ => searchHeader rest
      else searchHeader rest

/-- The `headers` dict: an insertion-ordered association list from
normalized names to value lists (dict keys are unique in every state the
source constructs, so the update/remove operations below, acting on every
matching entry, coincide with the dict operations). -/
abbrev HMap := List (List Char × List (List Char))

/-- `self.headers.get(name)`. -/
def hmapGet : HMap → List Char → Option (List (List Char))
  | [], _ => none
  | (n, vs) :: rest, k => if n = k then some vs else hmapGet rest k

/-- `headers.setdefault(name, []).append(value)`. -/
def hmapAdd : HMap → List Char → List Char → HMap
  | [], k, v => [(k, [v])]
  | (n, vs) :: rest, k, v =>
      if n = k then (n, vs ++ [v]) :: rest
      else (n, vs) :: hmapAdd rest k v

/-- `for value in values: self.headers[name].append(value)` (the present
branch of `insert`). -/
def hmapExtend : HMap → List Char → List (List Char) → HMap
  | [], _, _ => []
  | (n, vs) :: rest, k, values =>
      if n = k then (n, vs ++ values) :: rest
      else (n, vs) :: hmapExtend rest k values

/-- `self.headers[name] = values` on a present key (`replace`). -/
def hmapSetValues : HMap → List Char → List (List Char) → HMap
  | [], _, _ => []
  | (n, vs) :: rest, k, values =>
      if n = k then (k, values) :: rest
      else (n, vs) :: hmapSetValues rest k values

/-- `self.headers.pop(name)` on a present key (`delete`). -/
def hmapRemove : HMap → List Char → HMap
  | [], _ => []
  | (n, vs) :: rest, k =>
      if n = k then hmapRemove rest k else (n, vs) :: hmapRemove rest k

/-- One iteration of the loop in `HTTPHeaders._parse_header_lines`. -/
def parseHeaderLine (m : HMap) (line : List Char) : HMap :=
  match searchHeader line with
  | none => m
  | some (name, value) => hmapAdd m (normalizeHeader name) value

/-- `HTTPHeaders._parse_header_lines`: `lines[0]` is the start line
(`none` is the `IndexError` on an empty list); every further line feeds
the regex loop. -/
def parseHeaderLines (lines : List (List Char)) : Option (List Char × HMap) :=
  match lines with
  | [] => none
  | sl :: rest => some (sl, rest.foldl parseHeaderLine [])

/-- `HTTPHeaders._parse_raw_headers` (decode ∘ split ∘ unfold ∘ parse). -/
def parseRawHeaders (raw : List Char) : Option (List Char × HMap) :=
  match unfoldLines (splitHeaderLines raw) with
  | none => none
  | some unfolded => parseHeaderLines unfolded

/-- One serialized header line body (without its CRLF terminator):
`self._format_header(name) + ": " + value`. -/
def headerLineBody (name value : List Char) : List Char :=
  formatHeader name ++ ':' :: ' ' :: value

/-- The header lines of `_update_raw_bytes`: one line per value, per name,
in map order. -/
def hmapLines : HMap → List (List Char)
  | [] => []
  | (n, vs) :: rest => vs.map (fun v => headerLineBody n v) ++ hmapLines rest

/-- `"".join(...)` of blocks each terminated by CRLF. -/
def concatCRLFLines : List (List Char) → List Char
  | [] => []
  | l :: ls => l ++ '\r' :: '\n' :: concatCRLFLines ls

/-- `HTTPHeaders._update_raw_bytes`: `start_line CRLF`, one
`Name: value CRLF` per value, and a final blank `CRLF`. -/
def serializeHeaders (sl : List Char) (m : HMap) : List Char :=
  concatCRLFLines (sl :: (hmapLines m ++ [[]]))

/-- The `HTTPHeaders` object: raw bytes, start line and parsed map. -/
structure HTTPHeaders where
  raw : List Char
  startLine : List Char
  headers : HMap
deriving Repr, DecidableEq

/-- `HTTPHeaders.__init__`: parse the raw block; `none` when the parse
raises (`IndexError` on an empty or continuation-led block). -/
def mkHTTPHeaders (raw : List Char) : Option HTTPHeaders :=
  (parseRawHeaders raw).map (fun p => ⟨raw, p.1, p.2⟩)

/-- `HTTPHeaders.get_header`. -/
def HTTPHeaders.getHeader (h : HTTPHeaders) (name : List Char) :
    Option (List (List Char)) :=
  hmapGet h.headers (normalizeHeader name)

/-- Re-derivation of `raw` after a mutation (`_update_raw_bytes`). -/
def updateRawBytes (h : HTTPHeaders) : HTTPHeaders :=
  { h with raw := serializeHeaders h.startLine h.headers }

/-- `HTTPHeaders.insert`. -/
def HTTPHeaders.insert (h : HTTPHeaders) (name : List Char)
    (values : List (List Char)) : HTTPHeaders :=
  match hmapGet h.headers (normalizeHeader name) with
  | none => updateRawBytes
      { h with headers := h.headers ++ [(normalizeHeader name, values)] }
  | some _ => updateRawBytes
      { h with headers := hmapExtend h.headers (normalizeHeader name) values }

/-- `HTTPHeaders.replace`: overwrite and report `true` when present. -/
def HTTPHeaders.replaceH (h : HTTPHeaders) (name : List Char)
    (values : List (List Char)) : HTTPHeaders × Bool :=
  match hmapGet h.headers (normalizeHeader name) with
  | some _ => (updateRawBytes
      { h with headers := hmapSetValues h.headers (normalizeHeader name) values }, true)
  | none => (h, false)

/-- `HTTPHeaders.delete`: remove and report `true` when present. -/
def HTTPHeaders.delete (h : HTTPHeaders) (name : List Char) : HTTPHeaders × Bool :=
  match hmapGet h.headers (normalizeHeader name) with
  | some _ => (updateRawBytes
      { h with headers := hmapRemove h.headers (normalizeHeader name) }, true)
  | none => (h, false)

example : parseRawHeaders ("GET /x HTTP/1.1\r\nHost: a\r\nX-A: 1\r\nX-A: 2\r\n\r\n").data
    = some (("GET /x HTTP/1.1").data,
        [(("host").data, [("a").data]), (("x_a").data, [("1").data, ("2").data])]) := by
  decide

example : serializeHeaders ("GET /x HTTP/1.1").data
      [(("host").data, [("a").data]), (("x_a").data, [("1").data, ("2").data])]
    = ("GET /x HTTP/1.1\r\nHost: a\r\nX-A: 1\r\nX-A: 2\r\n\r\n").data := by
  decide

/-- **C8**: constructing a Header Set from an empty raw header block does
not succeed with an empty map — `_parse_header_lines` evaluates
`lines[0]` on an empty list and raises `IndexError` (`none`), both for
`b""` (the constructor's own default argument) and for a bare terminator
block `b"\r\n\r\n"`. -/
theorem c8_empty_block_construction_fails :
    mkHTTPHeaders [] = none ∧ mkHTTPHeaders ("\r\n\r\n").data = none := by
  constructor
  · rfl
  · rfl

/-! ### Character-level facts -/

theorem charToNat_inj {c d : Char} (h : c.toNat = d.toNat) : c = d :=
  Char.eq_of_val_eq (UInt32.toNat.inj h)

theorem char_toNat_ofNat_valid (n : Nat) (h : n < 55296) : (Char.ofNat n).toNat = n := by
  unfold Char.ofNat
  rw [dif_pos (Or.inl (by omega : n < 0xd800))]
  simp [Char.ofNatAux, Char.toNat, UInt32.toNat]

theorem toLower_charNat (c : Char) : (Char.toLower c).toNat =
    if 65 ≤ c.toNat ∧ c.toNat ≤ 90 then c.toNat + 32 else c.toNat := by
  show (if c.toNat ≥ 65 ∧ c.toNat ≤ 90 then Char.ofNat (c.toNat + 32) else c).toNat = _
  by_cases h1 : 65 ≤ c.toNat ∧ c.toNat ≤ 90
  · rw [if_pos ⟨h1.1, h1.2⟩, if_pos h1]
    exact char_toNat_ofNat_valid (c.toNat + 32) (by omega)
  · rw [if_neg (fun hc => h1 ⟨hc.1, hc.2⟩), if_neg h1]

theorem toUpper_charNat (c : Char) : (Char.toUpper c).toNat =
    if 97 ≤ c.toNat ∧ c.toNat ≤ 122 then c.toNat - 32 else c.toNat := by
  show (if c.toNat ≥ 97 ∧ c.toNat ≤ 122 then Char.ofNat (c.toNat - 32) else c).toNat = _
  by_cases h1 : 97 ≤ c.toNat ∧ c.toNat ≤ 122
  · rw [if_pos ⟨h1.1, h1.2⟩, if_pos h1]
    exact char_toNat_ofNat_valid (c.toNat - 32) (by omega)
  · rw [if_neg (fun hc => h1 ⟨hc.1, hc.2⟩), if_neg h1]

/-- A character is `str.lower`-stable iff it is not an ASCII capital. -/
theorem toLower_eq_self_iff (c : Char) :
    Char.toLower c = c ↔ ¬(65 ≤ c.toNat ∧ c.toNat ≤ 90) := by
  constructor
  · intro h hc
    have := toLower_charNat c
    rw [h, if_pos hc] at this
    omega
  · intro h
    apply charToNat_inj
    rw [toLower_charNat, if_neg h]

theorem toLower_toLower (c : Char) : Char.toLower (Char.toLower c) = Char.toLower c := by
  rw [toLower_eq_self_iff, toLower_charNat]
  by_cases h : 65 ≤ c.toNat ∧ c.toNat ≤ 90
  · rw [if_pos h]; omega
  · rw [if_neg h]; omega

theorem toLower_toUpper_of_stable (c : Char) (h : Char.toLower c = c) :
    Char.toLower (Char.toUpper c) = c := by
  have hst := (toLower_eq_self_iff c).mp h
  by_cases hl : 97 ≤ c.toNat ∧ c.toNat ≤ 122
  · apply charToNat_inj
    rw [toLower_charNat, toUpper_charNat, if_pos hl]
    have : 65 ≤ c.toNat - 32 ∧ c.toNat - 32 ≤ 90 := by omega
    rw [if_pos this]
    omega
  · have hup : Char.toUpper c = c := by
      apply charToNat_inj
      rw [toUpper_charNat, if_neg hl]
    rw [hup, h]

theorem isNameChar_iff (c : Char) : isNameChar c = true ↔
    ((65 ≤ c.toNat ∧ c.toNat ≤ 90) ∨ (97 ≤ c.toNat ∧ c.toNat ≤ 122) ∨
      (48 ≤ c.toNat ∧ c.toNat ≤ 57) ∨ c.toNat = 95 ∨ c.toNat = 45 ∨
      c.toNat = 170 ∨ c.toNat = 178 ∨ c.toNat = 179 ∨ c.toNat = 181 ∨
      c.toNat = 185 ∨ c.toNat = 186 ∨ (188 ≤ c.toNat ∧ c.toNat ≤ 190) ∨
      (192 ≤ c.toNat ∧ c.toNat ≤ 255 ∧ c.toNat ≠ 215 ∧ c.toNat ≠ 247)) := by
  simp [isNameChar]

theorem isWS_iff (c : Char) : isWS c = true ↔
    ((9 ≤ c.toNat ∧ c.toNat ≤ 13) ∨ (28 ≤ c.toNat ∧ c.toNat ≤ 32) ∨
      c.toNat = 133 ∨ c.toNat = 160) := by
  simp [isWS]

/-- On the ASCII range Python's `str.lower` coincides with the core
ASCII `Char.toLower`. -/
theorem pyLower_ascii (c : Char) (h : c.toNat ≤ 127) :
    pyLower c = Char.toLower c := by
  show _ = (if c.toNat ≥ 65 ∧ c.toNat ≤ 90 then Char.ofNat (c.toNat + 32) else c)
  unfold pyLower
  by_cases hb : 65 ≤ c.toNat ∧ c.toNat ≤ 90
  · rw [if_pos (Or.inl hb), if_pos ⟨hb.1, hb.2⟩]
  · have hno : ¬((65 ≤ c.toNat ∧ c.toNat ≤ 90) ∨
        (192 ≤ c.toNat ∧ c.toNat ≤ 222 ∧ c.toNat ≠ 215)) := by
      intro hc
      rcases hc with hc | hc
      · exact hb hc
      · omega
    rw [if_neg hno, if_neg (fun hc => hb ⟨hc.1, hc.2⟩)]

/-- On the ASCII range the titlecase step of `str.capitalize` is the
one-character core ASCII `Char.toUpper`. -/
theorem pyTitle_ascii (c : Char) (h : c.toNat ≤ 127) :
    pyTitle c = [Char.toUpper c] := by
  have hup : Char.toUpper c =
      (if c.toNat ≥ 97 ∧ c.toNat ≤ 122 then Char.ofNat (c.toNat - 32) else c) := rfl
  unfold pyTitle
  by_cases hb : 97 ≤ c.toNat ∧ c.toNat ≤ 122
  · rw [if_pos (Or.inl hb), hup, if_pos ⟨hb.1, hb.2⟩]
  · have hno : ¬((97 ≤ c.toNat ∧ c.toNat ≤ 122) ∨
        (224 ≤ c.toNat ∧ c.toNat ≤ 254 ∧ c.toNat ≠ 247)) := by
      intro hc
      rcases hc with hc | hc
      · exact hb hc
      · omega
    rw [if_neg hno, if_neg (by omega), if_neg (by omega), if_neg (by omega),
      hup, if_neg (fun hc => hb ⟨hc.1, hc.2⟩)]

theorem pyTitle_ne_nil (c : Char) : pyTitle c ≠ [] := by
  unfold pyTitle
  by_cases h1 : (97 ≤ c.toNat ∧ c.toNat ≤ 122) ∨
      (224 ≤ c.toNat ∧ c.toNat ≤ 254 ∧ c.toNat ≠ 247)
  · rw [if_pos h1]; simp
  · rw [if_neg h1]
    by_cases h2 : c.toNat = 181
    · rw [if_pos h2]; simp
    · rw [if_neg h2]
      by_cases h3 : c.toNat = 223
      · rw [if_pos h3]; simp
      · rw [if_neg h3]
        by_cases h4 : c.toNat = 255
        · rw [if_pos h4]; simp
        · rw [if_neg h4]; simp

theorem map_pyLower_ascii (l : List Char) (h : ∀ c ∈ l, c.toNat ≤ 127) :
    l.map pyLower = l.map Char.toLower :=
  List.map_congr_left (fun c hc => pyLower_ascii c (h c hc))

/-- On an ASCII word `capitalizeWord` has the familiar one-character
upper-case head. -/
theorem capitalizeWord_ascii_cons (c : Char) (r : List Char)
    (hc : c.toNat ≤ 127) (hr : ∀ d ∈ r, d.toNat ≤ 127) :
    capitalizeWord (c :: r) = c.toUpper :: r.map Char.toLower := by
  show pyTitle c ++ r.map pyLower = _
  rw [pyTitle_ascii c hc, map_pyLower_ascii r hr]
  rfl

theorem toLower_le_127 (c : Char) (h : c.toNat ≤ 127) :
    (Char.toLower c).toNat ≤ 127 := by
  rw [toLower_charNat]
  by_cases hb : 65 ≤ c.toNat ∧ c.toNat ≤ 90
  · rw [if_pos hb]; omega
  · rw [if_neg hb]; omega

theorem toUpper_le_127 (c : Char) (h : c.toNat ≤ 127) :
    (Char.toUpper c).toNat ≤ 127 := by
  rw [toUpper_charNat]
  by_cases hb : 97 ≤ c.toNat ∧ c.toNat ≤ 122
  · rw [if_pos hb]; omega
  · rw [if_neg hb]; omega

theorem isNameChar_not_isWS (c : Char) (h : isNameChar c = true) : isWS c = false := by
  rw [isNameChar_iff] at h
  cases hw : isWS c
  · rfl
  · rw [isWS_iff] at hw
    omega

theorem isNameChar_toLower (c : Char) (h : isNameChar c = true) :
    isNameChar (Char.toLower c) = true := by
  rw [isNameChar_iff] at h ⊢
  rw [toLower_charNat]
  by_cases hc : 65 ≤ c.toNat ∧ c.toNat ≤ 90
  · rw [if_pos hc]; omega
  · rw [if_neg hc]; omega

theorem isNameChar_toUpper (c : Char) (h : isNameChar c = true) :
    isNameChar (Char.toUpper c) = true := by
  rw [isNameChar_iff] at h ⊢
  rw [toUpper_charNat]
  by_cases hc : 97 ≤ c.toNat ∧ c.toNat ≤ 122
  · rw [if_pos hc]; omega
  · rw [if_neg hc]; omega

theorem toLower_ne_dash (c : Char) (h : c ≠ '-') : Char.toLower c ≠ '-' := by
  intro hc
  apply h
  apply charToNat_inj
  have hn : (Char.toLower c).toNat = ('-').toNat := by rw [hc]
  rw [toLower_charNat] at hn
  have hd : ('-').toNat = 45 := by decide
  by_cases hr : 65 ≤ c.toNat ∧ c.toNat ≤ 90
  · rw [if_pos hr] at hn; omega
  · rw [if_neg hr] at hn; rw [hn, hd]

theorem toUpper_ne_dash (c : Char) (h : c ≠ '-') : Char.toUpper c ≠ '-' := by
  intro hc
  apply h
  apply charToNat_inj
  have hn : (Char.toUpper c).toNat = ('-').toNat := by rw [hc]
  rw [toUpper_charNat] at hn
  have hd : ('-').toNat = 45 := by decide
  by_cases hr : 97 ≤ c.toNat ∧ c.toNat ≤ 122
  · rw [if_pos hr] at hn; omega
  · rw [if_neg hr] at hn; rw [hn, hd]

theorem isNameChar_ne_lf (c : Char) (h : isNameChar c = true) : c ≠ '\n' := by
  intro hc
  rw [isNameChar_iff] at h
  rw [hc] at h
  have : ('\n').toNat = 10 := by decide
  omega

theorem isWS_of_sp_or_tab (c : Char) (h : c = ' ' ∨ c = '\t') : isWS c = true := by
  rcases h with h | h <;> (rw [h]; decide)

/-! ### `dropWhile` / `strip` facts -/

theorem dropWhile_mem {p : Char → Bool} {l : List Char} {c : Char}
    (h : c ∈ l.dropWhile p) : c ∈ l := by
  induction l with
  | nil => simp at h
  | cons d rest ih =>
      rw [List.dropWhile_cons] at h
      by_cases hd : p d
      · simp only [hd, if_true] at h
        exact List.mem_cons_of_mem d (ih h)
      · simp only [hd, if_false] at h
        exact h

theorem dropWhile_eq_nil_iff {p : Char → Bool} {l : List Char} :
    l.dropWhile p = [] ↔ ∀ c ∈ l, p c = true := by
  induction l with
  | nil => simp
  | cons d rest ih =>
      rw [List.dropWhile_cons]
      by_cases hd : p d = true
      · simp [hd, ih]
      · rw [if_neg hd]
        constructor
        · intro hcontra
          exact absurd hcontra (by simp)
        · intro hall
          exact absurd (hall d (by simp)) hd

theorem dropWhile_head_false {p : Char → Bool} {l : List Char} {c : Char}
    (h : (l.dropWhile p).head? = some c) : p c = false := by
  induction l with
  | nil => simp at h
  | cons d rest ih =>
      rw [List.dropWhile_cons] at h
      by_cases hd : p d = true
      · rw [if_pos hd] at h
        exact ih h
      · rw [if_neg hd] at h
        simp only [List.head?_cons, Option.some.injEq] at h
        rw [← h]
        cases hb : p d with
        | false => rfl
        | true => exact absurd hb hd

theorem dropWhile_eq_self {p : Char → Bool} {l : List Char}
    (h : ∀ c, l.head? = some c → p c = false) : l.dropWhile p = l := by
  cases l with
  | nil => rfl
  | cons d rest =>
      rw [List.dropWhile_cons, if_neg]
      simp [h d rfl]

theorem dropWhile_getLast? {p : Char → Bool} {l : List Char}
    (h : l.dropWhile p ≠ []) : (l.dropWhile p).getLast? = l.getLast? := by
  induction l with
  | nil => simp at h
  | cons d rest ih =>
      rw [List.dropWhile_cons] at h ⊢
      by_cases hd : p d = true
      · rw [if_pos hd] at h ⊢
        have hrest : rest ≠ [] := by
          intro hr
          rw [hr] at h
          simp at h
        rw [ih h]
        cases rest with
        | nil => exact absurd rfl hrest
        | cons e rest2 => rw [List.getLast?_cons_cons]
      · rw [if_neg hd]

theorem stripWS_cons_ws (c : Char) (l : List Char) (h : isWS c = true) :
    stripWS (c :: l) = stripWS l := by
  unfold stripWS
  rw [List.dropWhile_cons, if_pos h]

theorem all_dropWhile_iff {p : Char → Bool} {l : List Char} :
    (∀ c ∈ l.dropWhile p, p c = true) ↔ (∀ c ∈ l, p c = true) := by
  constructor
  · intro h c hc
    induction l with
    | nil => simp at hc
    | cons d rest ih =>
        rw [List.dropWhile_cons] at h
        by_cases hd : p d
        · rcases List.mem_cons.mp hc with hc | hc
          · rw [hc]; exact hd
          · exact ih (by simpa [hd] using h) hc
        · exact h c (by simpa [hd] using hc)
  · intro h c hc
    exact h c (dropWhile_mem hc)

theorem stripWS_eq_nil_iff (l : List Char) :
    stripWS l = [] ↔ ∀ c ∈ l, isWS c = true := by
  unfold stripWS
  rw [List.reverse_eq_nil_iff, dropWhile_eq_nil_iff]
  constructor
  · intro h c hc
    have h2 : ∀ d ∈ l.dropWhile isWS, isWS d = true := fun d hd => h d (by simpa using hd)
    exact all_dropWhile_iff.mp h2 c hc
  · intro h c hc
    simp only [List.mem_reverse] at hc
    exact h c (dropWhile_mem hc)

theorem stripWS_head (l : List Char) (c : Char)
    (h : (stripWS l).head? = some c) : isWS c = false := by
  unfold stripWS at h
  rw [List.head?_reverse] at h
  have hne : (l.dropWhile isWS).reverse.dropWhile isWS ≠ [] := by
    intro hnil
    rw [hnil] at h
    simp at h
  rw [dropWhile_getLast? hne, List.getLast?_reverse] at h
  exact dropWhile_head_false h

theorem stripWS_last (l : List Char) (c : Char)
    (h : (stripWS l).getLast? = some c) : isWS c = false := by
  unfold stripWS at h
  rw [List.getLast?_reverse] at h
  exact dropWhile_head_false h

theorem stripWS_eq_self_of_ends (l : List Char)
    (h1 : ∀ c, l.head? = some c → isWS c = false)
    (h2 : ∀ c, l.getLast? = some c → isWS c = false) : stripWS l = l := by
  unfold stripWS
  rw [dropWhile_eq_self h1]
  rw [dropWhile_eq_self (fun c hc => h2 c (by rwa [List.head?_reverse] at hc))]
  exact List.reverse_reverse l

theorem stripWS_idem (l : List Char) : stripWS (stripWS l) = stripWS l :=
  stripWS_eq_self_of_ends _ (stripWS_head l) (stripWS_last l)

theorem stripWS_eq_self_of_noWS (l : List Char)
    (h : ∀ c ∈ l, isWS c = false) : stripWS l = l := by
  apply stripWS_eq_self_of_ends
  · intro c hc
    exact h c (by cases l with
      | nil => simp at hc
      | cons d rest => simp at hc; simp [hc])
  · intro c hc
    exact h c (List.mem_of_getLast?_eq_some hc)

theorem mem_stripWS {l : List Char} {c : Char} (h : c ∈ stripWS l) : c ∈ l := by
  unfold stripWS at h
  rw [List.mem_reverse] at h
  have := dropWhile_mem h
  rw [List.mem_reverse] at this
  exact dropWhile_mem this

/-! ### `split` / `join` facts -/

theorem splitOnChar_ne_nil (sep : Char) (l : List Char) : splitOnChar sep l ≠ [] := by
  cases l with
  | nil => simp [splitOnChar]
  | cons c rest =>
      unfold splitOnChar
      by_cases hc : c = sep
      · simp [hc]
      · rw [if_neg hc]
        cases hs : splitOnChar sep rest with
        | nil => simp
        | cons w ws => simp

theorem splitOnChar_cons_sep (sep : Char) (rest : List Char) :
    splitOnChar sep (sep :: rest) = [] :: splitOnChar sep rest := by
  conv_lhs => rw [splitOnChar]
  rw [if_pos rfl]

theorem splitOnChar_cons_ne (sep c : Char) (rest : List Char) (hc : c ≠ sep) :
    splitOnChar sep (c :: rest) =
      match splitOnChar sep rest with
      | [] => [[c]]
      | w :: ws => (c :: w) :: ws := by
  conv_lhs => rw [splitOnChar]
  rw [if_neg hc]

theorem mem_splitOnChar_not_sep (sep : Char) (l : List Char) :
    ∀ w ∈ splitOnChar sep l, sep ∉ w := by
  induction l with
  | nil =>
      intro w hw
      simp [splitOnChar] at hw
      simp [hw]
  | cons c rest ih =>
      intro w hw
      by_cases hc : c = sep
      · rw [hc, splitOnChar_cons_sep] at hw
        rcases List.mem_cons.mp hw with hw | hw
        · simp [hw]
        · exact ih w hw
      · rw [splitOnChar_cons_ne sep c rest hc] at hw
        cases hs : splitOnChar sep rest with
        | nil => exact absurd hs (splitOnChar_ne_nil sep rest)
        | cons v vs =>
            rw [hs] at hw
            rcases List.mem_cons.mp hw with hw | hw
            · rw [hw]
              intro hmem
              rcases List.mem_cons.mp hmem with hmem | hmem
              · exact hc hmem.symm
              · exact ih v (by rw [hs]; exact List.mem_cons_self v vs) hmem
            · exact ih w (by rw [hs]; exact List.mem_cons_of_mem v hw)

theorem mem_mem_splitOnChar (sep : Char) (l : List Char) :
    ∀ w ∈ splitOnChar sep l, ∀ c ∈ w, c ∈ l := by
  induction l with
  | nil =>
      intro w hw c hc
      simp [splitOnChar] at hw
      rw [hw] at hc
      simp at hc
  | cons d rest ih =>
      intro w hw c hc
      by_cases hd : d = sep
      · rw [hd, splitOnChar_cons_sep] at hw
        rcases List.mem_cons.mp hw with hw | hw
        · rw [hw] at hc; simp at hc
        · exact List.mem_cons_of_mem d (ih w hw c hc)
      · rw [splitOnChar_cons_ne sep d rest hd] at hw
        cases hs : splitOnChar sep rest with
        | nil => exact absurd hs (splitOnChar_ne_nil sep rest)
        | cons v vs =>
            rw [hs] at hw
            rcases List.mem_cons.mp hw with hw | hw
            · rw [hw] at hc
              rcases List.mem_cons.mp hc with hc | hc
              · rw [hc]; simp
              · exact List.mem_cons_of_mem d
                  (ih v (by rw [hs]; exact List.mem_cons_self v vs) c hc)
            · exact List.mem_cons_of_mem d
                (ih w (by rw [hs]; exact List.mem_cons_of_mem v hw) c hc)

theorem joinWithChar_splitOnChar (sep : Char) (l : List Char) :
    joinWithChar sep (splitOnChar sep l) = l := by
  induction l with
  | nil => rfl
  | cons c rest ih =>
      by_cases hc : c = sep
      · rw [hc, splitOnChar_cons_sep]
        cases hs : splitOnChar sep rest with
        | nil => exact absurd hs (splitOnChar_ne_nil sep rest)
        | cons v vs =>
            rw [hs] at ih
            show joinWithChar sep ([] :: v :: vs) = sep :: rest
            show [] ++ sep :: joinWithChar sep (v :: vs) = sep :: rest
            rw [List.nil_append, ih]
      · rw [splitOnChar_cons_ne sep c rest hc]
        cases hs : splitOnChar sep rest with
        | nil => exact absurd hs (splitOnChar_ne_nil sep rest)
        | cons v vs =>
            rw [hs] at ih
            cases vs with
            | nil =>
                show joinWithChar sep [c :: v] = c :: rest
                show c :: v = c :: rest
                rw [show joinWithChar sep [v] = v from rfl] at ih
                rw [ih]
            | cons v2 vs2 =>
                show (c :: v) ++ sep :: joinWithChar sep (v2 :: vs2) = c :: rest
                show c :: (v ++ sep :: joinWithChar sep (v2 :: vs2)) = c :: rest
                rw [show joinWithChar sep (v :: v2 :: vs2) =
                  v ++ sep :: joinWithChar sep (v2 :: vs2) from rfl] at ih
                rw [ih]

theorem splitOnChar_of_no_sep (sep : Char) (w : List Char) (h : sep ∉ w) :
    splitOnChar sep w = [w] := by
  induction w with
  | nil => rfl
  | cons c rest ih =>
      have hc : c ≠ sep := by
        intro hcc
        exact h (by rw [hcc]; simp)
      rw [splitOnChar_cons_ne sep c rest hc]
      rw [ih (fun hm => h (List.mem_cons_of_mem c hm))]

theorem splitOnChar_append_sep (sep : Char) (w r : List Char) (h : sep ∉ w) :
    splitOnChar sep (w ++ sep :: r) = w :: splitOnChar sep r := by
  induction w with
  | nil => simpa using splitOnChar_cons_sep sep r
  | cons c rest ih =>
      have hc : c ≠ sep := by
        intro hcc
        exact h (by rw [hcc]; simp)
      rw [List.cons_append, splitOnChar_cons_ne sep c _ hc]
      rw [ih (fun hm => h (List.mem_cons_of_mem c hm))]

theorem splitOnChar_joinWithChar (sep : Char) (parts : List (List Char))
    (hne : parts ≠ []) (h : ∀ w ∈ parts, sep ∉ w) :
    splitOnChar sep (joinWithChar sep parts) = parts := by
  induction parts with
  | nil => exact absurd rfl hne
  | cons w ws ih =>
      cases ws with
      | nil =>
          show splitOnChar sep w = [w]
          exact splitOnChar_of_no_sep sep w (h w (by simp))
      | cons w2 ws2 =>
          show splitOnChar sep (w ++ sep :: joinWithChar sep (w2 :: ws2)) = _
          rw [splitOnChar_append_sep sep w _ (h w (by simp))]
          rw [ih (by simp) (fun v hv => h v (List.mem_cons_of_mem w hv))]

theorem joinWithChar_eq_nil (sep : Char) (ws : List (List Char))
    (h : joinWithChar sep ws = []) : ws = [] ∨ ws = [[]] := by
  cases ws with
  | nil => exact Or.inl rfl
  | cons w ws2 =>
      cases ws2 with
      | nil =>
          right
          show w :: [] = [[]]
          rw [show joinWithChar sep [w] = w from rfl] at h
          rw [h]
      | cons w2 ws3 =>
          rw [show joinWithChar sep (w :: w2 :: ws3) =
            w ++ sep :: joinWithChar sep (w2 :: ws3) from rfl] at h
          exact absurd h (by simp)

theorem mem_joinWithChar (sep : Char) (parts : List (List Char)) (c : Char)
    (h : c ∈ joinWithChar sep parts) : c = sep ∨ ∃ w ∈ parts, c ∈ w := by
  induction parts with
  | nil => simp [joinWithChar] at h
  | cons w ws ih =>
      cases ws with
      | nil =>
          rw [show joinWithChar sep [w] = w from rfl] at h
          exact Or.inr ⟨w, by simp, h⟩
      | cons w2 ws2 =>
          rw [show joinWithChar sep (w :: w2 :: ws2) =
            w ++ sep :: joinWithChar sep (w2 :: ws2) from rfl] at h
          rcases List.mem_append.mp h with h | h
          · exact Or.inr ⟨w, by simp, h⟩
          · rcases List.mem_cons.mp h with h | h
            · exact Or.inl h
            · rcases ih h with h | ⟨v, hv, hc⟩
              · exact Or.inl h
              · exact Or.inr ⟨v, List.mem_cons_of_mem w hv, hc⟩

/-! ### CRLF replacement over serialized blocks -/

theorem replaceCRLF_cons_ne_cr (c : Char) (l : List Char) (hc : c ≠ '\r') :
    replaceCRLFwithLF (c :: l) = c :: replaceCRLFwithLF l := by
  cases l with
  | nil => rfl
  | cons c2 l2 =>
      conv_lhs => rw [replaceCRLFwithLF]
      rw [if_neg (fun h => hc h.1)]

theorem replaceCRLF_cr_cons (l : List Char) (hl : l.head? ≠ some '\n') :
    replaceCRLFwithLF ('\r' :: l) = '\r' :: replaceCRLFwithLF l := by
  cases l with
  | nil => rfl
  | cons c2 l2 =>
      have h2 : c2 ≠ '\n' := by
        intro hc
        exact hl (by rw [hc]; rfl)
      conv_lhs => rw [replaceCRLFwithLF]
      rw [if_neg (fun h => h2 h.2)]

theorem replaceCRLF_crlf (b : List Char) :
    replaceCRLFwithLF ('\r' :: '\n' :: b) = '\n' :: replaceCRLFwithLF b := by
  conv_lhs => rw [replaceCRLFwithLF]
  rw [if_pos ⟨rfl, rfl⟩]

theorem replaceCRLF_append_noLF (a b : List Char) (ha : '\n' ∉ a) :
    replaceCRLFwithLF (a ++ '\r' :: '\n' :: b) = a ++ '\n' :: replaceCRLFwithLF b := by
  induction a with
  | nil => simpa using replaceCRLF_crlf b
  | cons c a2 ih =>
      have hc2 : '\n' ∉ a2 := fun hm => ha (List.mem_cons_of_mem c hm)
      by_cases hc : c = '\r'
      · subst hc
        rw [List.cons_append, replaceCRLF_cr_cons]
        · rw [ih hc2]
          rfl
        · cases a2 with
          | nil =>
              intro hcontra
              simp at hcontra
          | cons d a3 =>
              intro hcontra
              simp only [List.cons_append, List.head?_cons, Option.some.injEq] at hcontra
              exact ha (by rw [hcontra]; simp)
      · rw [List.cons_append, replaceCRLF_cons_ne_cr c _ hc, ih hc2]
        rfl

/-- Concatenation of blocks each terminated by a bare LF (the shape of the
serialized header bytes after `replace("\r\n", "\n")`). -/
def concatLFLines : List (List Char) → List Char
  | [] => []
  | l :: ls => l ++ '\n' :: concatLFLines ls

theorem replaceCRLF_concat (blocks : List (List Char))
    (h : ∀ b ∈ blocks, '\n' ∉ b) :
    replaceCRLFwithLF (concatCRLFLines blocks) = concatLFLines blocks := by
  induction blocks with
  | nil => rfl
  | cons b bs ih =>
      show replaceCRLFwithLF (b ++ '\r' :: '\n' :: concatCRLFLines bs) = _
      rw [replaceCRLF_append_noLF b _ (h b (by simp))]
      rw [ih (fun x hx => h x (List.mem_cons_of_mem b hx))]
      rfl

theorem splitOnChar_concatLF (blocks : List (List Char))
    (h : ∀ b ∈ blocks, '\n' ∉ b) :
    splitOnChar '\n' (concatLFLines blocks) = blocks ++ [[]] := by
  induction blocks with
  | nil => rfl
  | cons b bs ih =>
      show splitOnChar '\n' (b ++ '\n' :: concatLFLines bs) = _
      rw [splitOnChar_append_sep '\n' b _ (h b (by simp))]
      rw [ih (fun x hx => h x (List.mem_cons_of_mem b hx))]
      rfl

/-! ### `takeWhile`/`dropWhile` over a name followed by a colon -/

theorem takeWhile_dropWhile_append (p : Char → Bool) (n w : List Char) (x : Char)
    (hn : ∀ c ∈ n, p c = true) (hx : p x = false) :
    (n ++ x :: w).takeWhile p = n ∧ (n ++ x :: w).dropWhile p = x :: w := by
  induction n with
  | nil =>
      constructor
      · rw [List.nil_append, List.takeWhile_cons, hx]
        rfl
      · rw [List.nil_append, List.dropWhile_cons]
        rw [if_neg (by simp [hx])]
  | cons c n2 ih =>
      have hc : p c = true := hn c (by simp)
      obtain ⟨ih1, ih2⟩ := ih (fun d hd => hn d (List.mem_cons_of_mem c hd))
      constructor
      · rw [List.cons_append, List.takeWhile_cons, hc]
        simp only [if_true]
        rw [ih1]
      · rw [List.cons_append, List.dropWhile_cons, if_pos (by simp [hc])]
        exact ih2

/-! ### `searchHeader` on parse and on serialized lines -/

theorem isNameChar_colon : isNameChar ':' = false := by decide

theorem searchHeader_name_line (n w : List Char) (hne : n ≠ [])
    (hn : ∀ c ∈ n, isNameChar c = true) :
    searchHeader (n ++ ':' :: w) = some (n, stripWS w) := by
  cases n with
  | nil => exact absurd rfl hne
  | cons c n2 =>
      obtain ⟨htw, hdw⟩ := takeWhile_dropWhile_append isNameChar (c :: n2) w ':'
        hn isNameChar_colon
      rw [List.cons_append]
      conv_lhs => rw [searchHeader]
      rw [if_pos (hn c (by simp))]
      rw [show c :: (n2 ++ ':' :: w) = (c :: n2) ++ ':' :: w from rfl]
      rw [hdw, htw]
      rfl

theorem mem_takeWhile_mem {p : Char → Bool} :
    ∀ (l : List Char) (c : Char), c ∈ l.takeWhile p → c ∈ l := by
  intro l
  induction l with
  | nil => intro c h; simp at h
  | cons d rest ih =>
      intro c h
      rw [List.takeWhile_cons] at h
      by_cases hd : p d = true
      · rw [if_pos hd] at h
        rcases List.mem_cons.mp h with h | h
        · rw [h]; simp
        · exact List.mem_cons_of_mem d (ih c h)
      · rw [if_neg hd] at h
        simp at h

theorem searchHeader_spec : ∀ (l : List Char) (n v : List Char),
    searchHeader l = some (n, v) →
    n ≠ [] ∧ (∀ c ∈ n, isNameChar c = true) ∧ stripWS v = v ∧ (∀ c ∈ v, c ∈ l) ∧
      (∀ c ∈ n, c ∈ l) := by
  intro l
  induction l with
  | nil => intro n v h; simp [searchHeader] at h
  | cons c rest ih =>
      intro n v h
      rw [searchHeader] at h
      by_cases hc : isNameChar c = true
      · rw [if_pos hc] at h
        split at h
        · next rest2 heq =>
            simp only [Option.some.injEq, Prod.mk.injEq] at h
            obtain ⟨hn, hv⟩ := h
            refine ⟨?_, ?_, ?_, ?_, ?_⟩
            · rw [← hn, List.takeWhile_cons, hc]
              simp
            · intro d hd
              rw [← hn] at hd
              exact List.mem_takeWhile_imp hd
            · rw [← hv]
              exact stripWS_idem rest2
            · intro d hd
              rw [← hv] at hd
              have hd2 : d ∈ rest2 := mem_stripWS hd
              have hd3 : d ∈ (c :: rest).dropWhile isNameChar := by
                rw [heq]
                exact List.mem_cons_of_mem ':' hd2
              exact dropWhile_mem hd3
            · intro d hd
              rw [← hn] at hd
              exact mem_takeWhile_mem (c :: rest) d hd
        · next =>
            obtain ⟨h1, h2, h3, h4, h5⟩ := ih n v h
            exact ⟨h1, h2, h3, fun d hd => List.mem_cons_of_mem c (h4 d hd),
              fun d hd => List.mem_cons_of_mem c (h5 d hd)⟩
      · rw [if_neg hc] at h
        obtain ⟨h1, h2, h3, h4, h5⟩ := ih n v h
        exact ⟨h1, h2, h3, fun d hd => List.mem_cons_of_mem c (h4 d hd),
          fun d hd => List.mem_cons_of_mem c (h5 d hd)⟩

/-! ### Unfolded-line invariants -/

/-- Properties of every line `_unfold_lines` outputs: not blank, not a
continuation line, and (coming from a split on newlines) free of `\n`. -/
def GoodLine (line : List Char) : Prop :=
  stripWS line ≠ [] ∧ line.head? ≠ some ' ' ∧ line.head? ≠ some '\t' ∧ '\n' ∉ line

theorem unfoldLinesAux_good_step (acc : List (List Char)) (line : List Char)
    (rest : List (List Char)) (h1 : stripWS line ≠ [])
    (h2 : line.head? ≠ some ' ') (h3 : line.head? ≠ some '\t') :
    unfoldLinesAux acc (line :: rest) = unfoldLinesAux (acc ++ [line]) rest := by
  conv_lhs => rw [unfoldLinesAux]
  rw [if_neg h1, if_neg (by intro hc; rcases hc with hc | hc; exact h2 hc; exact h3 hc)]

theorem unfoldLinesAux_blank_step (acc : List (List Char)) (line : List Char)
    (rest : List (List Char)) (h1 : stripWS line = []) :
    unfoldLinesAux acc (line :: rest) = unfoldLinesAux acc rest := by
  conv_lhs => rw [unfoldLinesAux]
  rw [if_pos h1]

theorem unfoldLinesAux_run (goodLines : List (List Char))
    (hgood : ∀ l ∈ goodLines, stripWS l ≠ [] ∧ l.head? ≠ some ' ' ∧ l.head? ≠ some '\t')
    (b1 b2 : List Char) (hb1 : stripWS b1 = []) (hb2 : stripWS b2 = []) :
    ∀ acc, unfoldLinesAux acc (goodLines ++ [b1, b2]) = some (acc ++ goodLines) := by
  induction goodLines with
  | nil =>
      intro acc
      rw [List.nil_append, unfoldLinesAux_blank_step _ _ _ hb1,
        unfoldLinesAux_blank_step _ _ _ hb2]
      simp [unfoldLinesAux]
  | cons line rest ih =>
      intro acc
      obtain ⟨h1, h2, h3⟩ := hgood line (by simp)
      rw [List.cons_append, unfoldLinesAux_good_step acc line _ h1 h2 h3]
      rw [ih (fun l hl => hgood l (List.mem_cons_of_mem line hl)) (acc ++ [line])]
      simp

theorem appendToLast_shape (x : List Char) :
    ∀ (acc acc2 : List (List Char)), appendToLast x acc = some acc2 →
    ∀ l ∈ acc2, l ∈ acc ∨ ∃ w ∈ acc, l = w ++ x := by
  intro acc
  induction acc with
  | nil => intro acc2 h; simp [appendToLast] at h
  | cons w ws ih =>
      intro acc2 h l hl
      cases ws with
      | nil =>
          simp only [appendToLast, Option.some.injEq] at h
          rw [← h] at hl
          simp only [List.mem_singleton] at hl
          exact Or.inr ⟨w, by simp, hl⟩
      | cons w2 ws2 =>
          rw [show appendToLast x (w :: w2 :: ws2) =
            (appendToLast x (w2 :: ws2)).map (fun ws3 => w :: ws3) from rfl] at h
          cases h2 : appendToLast x (w2 :: ws2) with
          | none => rw [h2] at h; simp at h
          | some ws3 =>
              rw [h2] at h
              simp only [Option.map_some', Option.some.injEq] at h
              rw [← h] at hl
              rcases List.mem_cons.mp hl with hl | hl
              · exact Or.inl (by rw [hl]; simp)
              · rcases ih ws3 h2 l hl with hcase | ⟨v, hv, hlv⟩
                · exact Or.inl (List.mem_cons_of_mem w hcase)
                · exact Or.inr ⟨v, List.mem_cons_of_mem w hv, hlv⟩

theorem stripWS_ne_nil_append (w x : List Char) (h : stripWS w ≠ []) :
    stripWS (w ++ x) ≠ [] := by
  intro hc
  apply h
  rw [stripWS_eq_nil_iff] at hc ⊢
  exact fun c hcm => hc c (List.mem_append_left x hcm)

theorem head?_append_left (w x : List Char) (h : w ≠ []) :
    (w ++ x).head? = w.head? := by
  cases w with
  | nil => exact absurd rfl h
  | cons c rest => rfl

theorem unfoldLinesAux_good :
    ∀ (input acc : List (List Char)) (out : List (List Char)),
    (∀ l ∈ acc, GoodLine l) → (∀ l ∈ input, '\n' ∉ l) →
    unfoldLinesAux acc input = some out → ∀ l ∈ out, GoodLine l := by
  intro input
  induction input with
  | nil =>
      intro acc out hacc hinp h
      simp only [unfoldLinesAux, Option.some.injEq] at h
      rw [← h]
      exact hacc
  | cons line rest ih =>
      intro acc out hacc hinp h
      rw [unfoldLinesAux] at h
      by_cases h1 : stripWS line = []
      · rw [if_pos h1] at h
        exact ih acc out hacc (fun l hl => hinp l (List.mem_cons_of_mem line hl)) h
      · rw [if_neg h1] at h
        by_cases h2 : line.head? = some ' ' ∨ line.head? = some '\t'
        · rw [if_pos h2] at h
          split at h
          · simp at h
          · next acc2 happ =>
              refine ih acc2 out ?_ (fun l hl => hinp l (List.mem_cons_of_mem line hl)) h
              intro l hl
              rcases appendToLast_shape _ acc acc2 happ l hl with hcase | ⟨w, hw, hlw⟩
              · exact hacc l hcase
              · obtain ⟨g1, g2, g3, g4⟩ := hacc w hw
                rw [hlw]
                have hwne : w ≠ [] := by
                  intro hcontra
                  rw [hcontra] at g1
                  exact g1 rfl
                refine ⟨stripWS_ne_nil_append w _ g1, ?_, ?_, ?_⟩
                · rw [head?_append_left w _ hwne]; exact g2
                · rw [head?_append_left w _ hwne]; exact g3
                · intro hmem
                  rcases List.mem_append.mp hmem with hmem | hmem
                  · exact g4 hmem
                  · rcases List.mem_cons.mp hmem with hmem | hmem
                    · exact absurd hmem.symm (by decide)
                    · exact hinp line (by simp) (mem_stripWS hmem)
        · rw [if_neg h2] at h
          refine ih (acc ++ [line]) out ?_
            (fun l hl => hinp l (List.mem_cons_of_mem line hl)) h
          intro l hl
          rcases List.mem_append.mp hl with hl | hl
          · exact hacc l hl
          · simp only [List.mem_singleton] at hl
            rw [hl]
            exact ⟨h1, fun hc => h2 (Or.inl hc), fun hc => h2 (Or.inr hc),
              hinp line (by simp)⟩

/-! ### Well-formedness of parsed header maps -/

/-- Shape of every header name normalized from an ASCII block: nonempty,
made of ASCII name characters that are lower-case-stable and not `-`.
(Names parsed from non-ASCII blocks satisfy all but the last conjunct —
and for them the serialization round-trip genuinely fails in the source,
as the `ß` counterexample below exhibits.) -/
def GoodKey (k : List Char) : Prop :=
  k ≠ [] ∧ ∀ c ∈ k, isNameChar c = true ∧ Char.toLower c = c ∧ c ≠ '-' ∧ c.toNat ≤ 127

/-- Shape of every stored header value: already stripped and free of
newlines. -/
def GoodValue (v : List Char) : Prop := stripWS v = v ∧ '\n' ∉ v

/-- Well-formedness of a parsed header map: unique keys in insertion
order, every key of normalized shape, every value list nonempty and made
of good values. -/
def WFHMap (m : HMap) : Prop :=
  (m.map Prod.fst).Nodup ∧
    ∀ p ∈ m, GoodKey p.1 ∧ p.2 ≠ [] ∧ ∀ v ∈ p.2, GoodValue v

theorem map_toLower_eq_nil (w : List Char) (h : w.map Char.toLower = []) : w = [] := by
  cases w with
  | nil => rfl
  | cons c rest => simp at h

theorem map_pyLower_eq_nil (w : List Char) (h : w.map pyLower = []) : w = [] := by
  cases w with
  | nil => rfl
  | cons c rest => simp at h

theorem goodKey_normalizeHeader (name : List Char) (hne : name ≠ [])
    (hn : ∀ c ∈ name, isNameChar c = true)
    (hascii : ∀ c ∈ name, c.toNat ≤ 127) : GoodKey (normalizeHeader name) := by
  have hstrip : stripWS name = name :=
    stripWS_eq_self_of_noWS name (fun c hc => isNameChar_not_isWS c (hn c hc))
  unfold normalizeHeader
  rw [hstrip]
  constructor
  · intro hnil
    rcases joinWithChar_eq_nil _ _ hnil with hcase | hcase
    · exact absurd (List.map_eq_nil_iff.mp hcase) (splitOnChar_ne_nil '-' name)
    · have hsingle : splitOnChar '-' name = [[]] := by
        cases hs : splitOnChar '-' name with
        | nil => exact absurd hs (splitOnChar_ne_nil '-' name)
        | cons w ws =>
            rw [hs] at hcase
            cases ws with
            | nil =>
                simp only [List.map_cons, List.map_nil, List.cons.injEq] at hcase
                rw [map_pyLower_eq_nil w hcase.1]
            | cons w2 ws2 => simp at hcase
      have hjoin := joinWithChar_splitOnChar '-' name
      rw [hsingle] at hjoin
      exact hne (by rw [← hjoin]; rfl)
  · intro c hc
    rcases mem_joinWithChar _ _ c hc with hcase | ⟨w2, hw2, hcw2⟩
    · rw [hcase]
      refine ⟨by decide, by decide, by decide, by decide⟩
    · obtain ⟨w, hwmem, hwmap⟩ := List.mem_map.mp hw2
      rw [← hwmap] at hcw2
      obtain ⟨c0, hc0mem, hc0map⟩ := List.mem_map.mp hcw2
      have hc0name : isNameChar c0 = true :=
        hn c0 (mem_mem_splitOnChar '-' name w hwmem c0 hc0mem)
      have hc0dash : c0 ≠ '-' := by
        intro hcontra
        exact mem_splitOnChar_not_sep '-' name w hwmem (by rw [← hcontra]; exact hc0mem)
      have hc0A : c0.toNat ≤ 127 :=
        hascii c0 (mem_mem_splitOnChar '-' name w hwmem c0 hc0mem)
      rw [← hc0map, pyLower_ascii c0 hc0A]
      exact ⟨isNameChar_toLower c0 hc0name, toLower_toLower c0, toLower_ne_dash c0 hc0dash,
        toLower_le_127 c0 hc0A⟩

theorem hmapAdd_cons_eq (qk : List Char) (qvs : List (List Char)) (rest : HMap)
    (k v : List Char) (h : qk = k) :
    hmapAdd ((qk, qvs) :: rest) k v = (qk, qvs ++ [v]) :: rest := by
  conv_lhs => rw [hmapAdd]
  rw [if_pos h]

theorem hmapAdd_cons_ne (qk : List Char) (qvs : List (List Char)) (rest : HMap)
    (k v : List Char) (h : qk ≠ k) :
    hmapAdd ((qk, qvs) :: rest) k v = (qk, qvs) :: hmapAdd rest k v := by
  conv_lhs => rw [hmapAdd]
  rw [if_neg h]

theorem hmapAdd_keys_sub (m : HMap) (k v : List Char) (n : List Char)
    (h : n ∈ (hmapAdd m k v).map Prod.fst) : n ∈ m.map Prod.fst ∨ n = k := by
  induction m with
  | nil =>
      simp only [hmapAdd, List.map_cons, List.map_nil, List.mem_singleton] at h
      exact Or.inr h
  | cons p rest ih =>
      obtain ⟨pk, pvs⟩ := p
      by_cases hk : pk = k
      · rw [hmapAdd_cons_eq pk pvs rest k v hk] at h
        exact Or.inl h
      · rw [hmapAdd_cons_ne pk pvs rest k v hk] at h
        rcases List.mem_cons.mp h with h | h
        · exact Or.inl (show n ∈ pk :: rest.map Prod.fst from by rw [h]; simp)
        · rcases ih h with hcase | hcase
          · exact Or.inl (show n ∈ pk :: rest.map Prod.fst from
              List.mem_cons_of_mem pk hcase)
          · exact Or.inr hcase

theorem WFHMap_hmapAdd (m : HMap) (k v : List Char) (hm : WFHMap m)
    (hk : GoodKey k) (hv : GoodValue v) : WFHMap (hmapAdd m k v) := by
  induction m with
  | nil =>
      refine ⟨by simp [hmapAdd], ?_⟩
      intro p hp
      simp only [hmapAdd, List.mem_singleton] at hp
      rw [hp]
      exact ⟨hk, by simp, fun w hw => by simp at hw; rw [hw]; exact hv⟩
  | cons q rest ih =>
      obtain ⟨qk, qvs⟩ := q
      obtain ⟨hnodup, hentries⟩ := hm
      simp only [List.map_cons, List.nodup_cons] at hnodup
      by_cases hqk : qk = k
      · rw [hmapAdd_cons_eq qk qvs rest k v hqk]
        constructor
        · simp only [List.map_cons, List.nodup_cons]
          exact hnodup
        · intro p hp
          rcases List.mem_cons.mp hp with hp | hp
          · rw [hp]
            obtain ⟨g1, g2, g3⟩ := hentries (qk, qvs) (by simp)
            refine ⟨g1, by simp, ?_⟩
            intro w hw
            rcases List.mem_append.mp hw with hw | hw
            · exact g3 w hw
            · simp only [List.mem_singleton] at hw
              rw [hw]
              exact hv
          · exact hentries p (List.mem_cons_of_mem _ hp)
      · rw [hmapAdd_cons_ne qk qvs rest k v hqk]
        have hwrest : WFHMap rest :=
          ⟨hnodup.2, fun p hp => hentries p (List.mem_cons_of_mem _ hp)⟩
        obtain ⟨ih1, ih2⟩ := ih hwrest
        constructor
        · simp only [List.map_cons, List.nodup_cons]
          refine ⟨?_, ih1⟩
          intro hcontra
          rcases hmapAdd_keys_sub rest k v qk hcontra with hcase | hcase
          · exact hnodup.1 hcase
          · exact hqk hcase
        · intro p hp
          rcases List.mem_cons.mp hp with hp | hp
          · rw [hp]
            exact hentries (qk, qvs) (by simp)
          · exact ih2 p hp

theorem WFHMap_foldl (lines : List (List Char)) :
    ∀ m0, WFHMap m0 → (∀ l ∈ lines, '\n' ∉ l) →
    (∀ l ∈ lines, ∀ c ∈ l, c.toNat ≤ 127) →
    WFHMap (lines.foldl parseHeaderLine m0) := by
  induction lines with
  | nil => intro m0 hm _ _; exact hm
  | cons line rest ih =>
      intro m0 hm hlf hA
      rw [List.foldl_cons]
      refine ih _ ?_ (fun l hl => hlf l (List.mem_cons_of_mem line hl))
        (fun l hl => hA l (List.mem_cons_of_mem line hl))
      unfold parseHeaderLine
      cases hs : searchHeader line with
      | none => exact hm
      | some p =>
          obtain ⟨name, value⟩ := p
          obtain ⟨hne, hnc, hstrip, hsub, hnsub⟩ := searchHeader_spec line name value hs
          refine WFHMap_hmapAdd m0 _ value hm
            (goodKey_normalizeHeader name hne hnc
              (fun c hc => hA line (by simp) c (hnsub c hc))) ?_
          exact ⟨hstrip, fun hmem => hlf line (by simp) (hsub '\n' hmem)⟩

theorem mem_replaceCRLF_fuel :
    ∀ (n : Nat) (l : List Char), l.length ≤ n →
    ∀ c ∈ replaceCRLFwithLF l, c ∈ l := by
  intro n
  induction n with
  | zero =>
      intro l hl c h
      cases l with
      | nil => simp [replaceCRLFwithLF] at h
      | cons a l2 => simp at hl
  | succ n ih =>
      intro l hl c h
      cases l with
      | nil => simp [replaceCRLFwithLF] at h
      | cons a l2 =>
          cases l2 with
          | nil =>
              rw [show replaceCRLFwithLF [a] = [a] from rfl] at h
              exact h
          | cons b rest =>
              by_cases hab : a = '\r' ∧ b = '\n'
              · rw [show replaceCRLFwithLF (a :: b :: rest) =
                    (if a = '\r' ∧ b = '\n' then '\n' :: replaceCRLFwithLF rest
                      else a :: replaceCRLFwithLF (b :: rest)) from rfl,
                  if_pos hab] at h
                rcases List.mem_cons.mp h with h | h
                · rw [h, hab.2]
                  simp
                · have hm : c ∈ rest := ih rest
                    (by simp only [List.length_cons] at hl; omega) c h
                  exact List.mem_cons_of_mem a (List.mem_cons_of_mem b hm)
              · rw [show replaceCRLFwithLF (a :: b :: rest) =
                    (if a = '\r' ∧ b = '\n' then '\n' :: replaceCRLFwithLF rest
                      else a :: replaceCRLFwithLF (b :: rest)) from rfl,
                  if_neg hab] at h
                rcases List.mem_cons.mp h with h | h
                · rw [h]; simp
                · exact List.mem_cons_of_mem a (ih (b :: rest)
                    (by simp only [List.length_cons] at hl ⊢; omega) c h)

theorem mem_replaceCRLF (l : List Char) (c : Char)
    (h : c ∈ replaceCRLFwithLF l) : c ∈ l :=
  mem_replaceCRLF_fuel l.length l le_rfl c h

/-- Characters of the unfolded lines come from the input lines or are the
space inserted by the continuation join, so an ASCII block unfolds to
ASCII lines. -/
theorem unfoldLinesAux_chars :
    ∀ (input acc out : List (List Char)),
    (∀ l ∈ acc, ∀ c ∈ l, c.toNat ≤ 127) →
    (∀ l ∈ input, ∀ c ∈ l, c.toNat ≤ 127) →
    unfoldLinesAux acc input = some out →
    ∀ l ∈ out, ∀ c ∈ l, c.toNat ≤ 127 := by
  intro input
  induction input with
  | nil =>
      intro acc out hacc _ h
      simp only [unfoldLinesAux, Option.some.injEq] at h
      rw [← h]
      exact hacc
  | cons line rest ih =>
      intro acc out hacc hinp h
      rw [unfoldLinesAux] at h
      by_cases h1 : stripWS line = []
      · rw [if_pos h1] at h
        exact ih acc out hacc (fun l hl => hinp l (List.mem_cons_of_mem line hl)) h
      · rw [if_neg h1] at h
        by_cases h2 : line.head? = some ' ' ∨ line.head? = some '\t'
        · rw [if_pos h2] at h
          split at h
          · simp at h
          · next acc2 happ =>
              refine ih acc2 out ?_
                (fun l hl => hinp l (List.mem_cons_of_mem line hl)) h
              intro l hl c hc
              rcases appendToLast_shape _ acc acc2 happ l hl with hcase | ⟨w, hw, hlw⟩
              · exact hacc l hcase c hc
              · rw [hlw] at hc
                rcases List.mem_append.mp hc with hc | hc
                · exact hacc w hw c hc
                · rcases List.mem_cons.mp hc with hc | hc
                  · rw [hc]; decide
                  · exact hinp line (by simp) c (mem_stripWS hc)
        · rw [if_neg h2] at h
          refine ih (acc ++ [line]) out ?_
            (fun l hl => hinp l (List.mem_cons_of_mem line hl)) h
          intro l hl
          rcases List.mem_append.mp hl with hl | hl
          · exact hacc l hl
          · simp only [List.mem_singleton] at hl
            rw [hl]
            exact hinp line (by simp)

theorem parseRawHeaders_spec (raw sl : List Char) (m : HMap)
    (hascii : ∀ c ∈ raw, c.toNat ≤ 127)
    (h : parseRawHeaders raw = some (sl, m)) : GoodLine sl ∧ WFHMap m := by
  unfold parseRawHeaders at h
  cases hu : unfoldLines (splitHeaderLines raw) with
  | none => rw [hu] at h; exact absurd h (by simp)
  | some unfolded =>
      rw [hu] at h
      have hlines : ∀ l ∈ splitHeaderLines raw, '\n' ∉ l := by
        intro l hl
        exact mem_splitOnChar_not_sep '\n' _ l hl
      have hasciiSplit : ∀ l ∈ splitHeaderLines raw, ∀ c ∈ l, c.toNat ≤ 127 := by
        intro l hl c hc
        exact hascii c (mem_replaceCRLF raw c
          (mem_mem_splitOnChar '\n' (replaceCRLFwithLF raw) l hl c hc))
      have hgood : ∀ l ∈ unfolded, GoodLine l :=
        unfoldLinesAux_good _ [] unfolded (by simp) hlines hu
      have hasciiUnf : ∀ l ∈ unfolded, ∀ c ∈ l, c.toNat ≤ 127 :=
        unfoldLinesAux_chars _ [] unfolded (by simp) hasciiSplit hu
      cases unfolded with
      | nil => simp [parseHeaderLines] at h
      | cons sl2 rest =>
          unfold parseHeaderLines at h
          simp only [Option.some.injEq, Prod.mk.injEq] at h
          obtain ⟨hsl, hm⟩ := h
          constructor
          · rw [← hsl]
            exact hgood sl2 (by simp)
          · rw [← hm]
            refine WFHMap_foldl rest [] ⟨by simp, by simp⟩ ?_ ?_
            · intro l hl
              exact (hgood l (List.mem_cons_of_mem sl2 hl)).2.2.2
            · intro l hl
              exact hasciiUnf l (List.mem_cons_of_mem sl2 hl)

/-! ### Rebuilding the map from its serialized lines -/

theorem hmapAdd_absent (m0 : HMap) (k v : List Char)
    (h : k ∉ m0.map Prod.fst) : hmapAdd m0 k v = m0 ++ [(k, [v])] := by
  induction m0 with
  | nil => rfl
  | cons p rest ih =>
      obtain ⟨n, vs⟩ := p
      have hn : n ≠ k := by
        intro hc
        exact h (by rw [hc]; simp)
      rw [hmapAdd_cons_ne n vs rest k v hn]
      rw [ih (fun hc => h (show k ∈ n :: rest.map Prod.fst from List.mem_cons_of_mem n hc))]
      rfl

theorem hmapAdd_last (m1 : HMap) (k : List Char) (ws : List (List Char)) (v : List Char)
    (h : k ∉ m1.map Prod.fst) :
    hmapAdd (m1 ++ [(k, ws)]) k v = m1 ++ [(k, ws ++ [v])] := by
  induction m1 with
  | nil =>
      rw [List.nil_append, hmapAdd_cons_eq k ws [] k v rfl]
      rfl
  | cons p rest ih =>
      obtain ⟨n, vs⟩ := p
      have hn : n ≠ k := by
        intro hc
        exact h (by rw [hc]; simp)
      rw [List.cons_append, hmapAdd_cons_ne n vs _ k v hn]
      rw [ih (fun hc => h (show k ∈ n :: rest.map Prod.fst from List.mem_cons_of_mem n hc))]
      rfl

theorem map_eq_self_of_forall {α : Type} (f : α → α) (l : List α)
    (h : ∀ x ∈ l, f x = x) : l.map f = l := by
  induction l with
  | nil => rfl
  | cons x rest ih =>
      rw [List.map_cons, h x (by simp), ih (fun y hy => h y (List.mem_cons_of_mem x hy))]

theorem map_toLower_stable (r : List Char) (h : ∀ c ∈ r, Char.toLower c = c) :
    r.map Char.toLower = r :=
  map_eq_self_of_forall Char.toLower r h

theorem capitalizeWord_eq_nil (w : List Char) (h : capitalizeWord w = []) : w = [] := by
  cases w with
  | nil => rfl
  | cons c rest =>
      simp only [capitalizeWord, List.append_eq_nil] at h
      exact absurd h.1 (pyTitle_ne_nil c)

theorem formatHeader_chars (k : List Char) (hk : GoodKey k) :
    formatHeader k ≠ [] ∧
      ∀ c ∈ formatHeader k, isNameChar c = true ∧ c.toNat ≤ 127 := by
  obtain ⟨hkne, hkc⟩ := hk
  constructor
  · intro hnil
    unfold formatHeader at hnil
    rcases joinWithChar_eq_nil _ _ hnil with hcase | hcase
    · exact absurd (List.map_eq_nil_iff.mp hcase) (splitOnChar_ne_nil '_' k)
    · have hsingle : splitOnChar '_' k = [[]] := by
        cases hs : splitOnChar '_' k with
        | nil => exact absurd hs (splitOnChar_ne_nil '_' k)
        | cons w ws =>
            rw [hs] at hcase
            cases ws with
            | nil =>
                simp only [List.map_cons, List.map_nil, List.cons.injEq] at hcase
                rw [capitalizeWord_eq_nil w hcase.1]
            | cons w2 ws2 => simp at hcase
      have hjoin := joinWithChar_splitOnChar '_' k
      rw [hsingle] at hjoin
      exact hkne (by rw [← hjoin]; rfl)
  · intro c hc
    unfold formatHeader at hc
    rcases mem_joinWithChar _ _ c hc with hcase | ⟨w2, hw2, hcw2⟩
    · rw [hcase]; exact ⟨by decide, by decide⟩
    · obtain ⟨w, hwmem, hwmap⟩ := List.mem_map.mp hw2
      rw [← hwmap] at hcw2
      cases w with
      | nil => simp [capitalizeWord] at hcw2
      | cons c0 r =>
          have hc0A : c0.toNat ≤ 127 :=
            (hkc c0 (mem_mem_splitOnChar '_' k _ hwmem c0 (by simp))).2.2.2
          have hrA : ∀ d ∈ r, d.toNat ≤ 127 := fun d hd =>
            (hkc d (mem_mem_splitOnChar '_' k _ hwmem d
              (List.mem_cons_of_mem c0 hd))).2.2.2
          rw [capitalizeWord_ascii_cons c0 r hc0A hrA] at hcw2
          rcases List.mem_cons.mp hcw2 with hcc | hcc
          · rw [hcc]
            exact ⟨isNameChar_toUpper c0
                ((hkc c0 (mem_mem_splitOnChar '_' k _ hwmem c0 (by simp))).1),
              toUpper_le_127 c0 hc0A⟩
          · obtain ⟨d, hdmem, hdmap⟩ := List.mem_map.mp hcc
            rw [← hdmap]
            exact ⟨isNameChar_toLower d
                ((hkc d (mem_mem_splitOnChar '_' k _ hwmem d
                  (List.mem_cons_of_mem c0 hdmem))).1),
              toLower_le_127 d (hrA d hdmem)⟩

theorem normalizeHeader_formatHeader (k : List Char) (hk : GoodKey k) :
    normalizeHeader (formatHeader k) = k := by
  obtain ⟨hfne, hfc⟩ := formatHeader_chars k hk
  obtain ⟨hkne, hkc⟩ := hk
  unfold normalizeHeader
  rw [stripWS_eq_self_of_noWS _ (fun c hc => isNameChar_not_isWS c (hfc c hc).1)]
  unfold formatHeader
  rw [splitOnChar_joinWithChar '-' _ (by
      intro hcontra
      exact absurd (List.map_eq_nil_iff.mp hcontra) (splitOnChar_ne_nil '_' k))
    (by
      intro w hw hdash
      obtain ⟨w0, hw0mem, hw0map⟩ := List.mem_map.mp hw
      rw [← hw0map] at hdash
      cases w0 with
      | nil => simp [capitalizeWord] at hdash
      | cons c0 r =>
          have hc0A : c0.toNat ≤ 127 :=
            (hkc c0 (mem_mem_splitOnChar '_' k _ hw0mem c0 (by simp))).2.2.2
          have hrA : ∀ d ∈ r, d.toNat ≤ 127 := fun d hd =>
            (hkc d (mem_mem_splitOnChar '_' k _ hw0mem d
              (List.mem_cons_of_mem c0 hd))).2.2.2
          rw [capitalizeWord_ascii_cons c0 r hc0A hrA] at hdash
          rcases List.mem_cons.mp hdash with hcc | hcc
          · exact toUpper_ne_dash c0
              ((hkc c0 (mem_mem_splitOnChar '_' k _ hw0mem c0 (by simp))).2.2.1) hcc.symm
          · obtain ⟨d, hdmem, hdmap⟩ := List.mem_map.mp hcc
            exact toLower_ne_dash d
              ((hkc d (mem_mem_splitOnChar '_' k _ hw0mem d
                (List.mem_cons_of_mem c0 hdmem))).2.2.1) hdmap)]
  rw [List.map_map]
  have hmapeq : (splitOnChar '_' k).map (List.map pyLower ∘ capitalizeWord) =
      splitOnChar '_' k := by
    apply map_eq_self_of_forall
    intro w0 hw0mem
    show List.map pyLower (capitalizeWord w0) = w0
    cases w0 with
    | nil => rfl
    | cons c0 r =>
        have hc0A : c0.toNat ≤ 127 :=
          (hkc c0 (mem_mem_splitOnChar '_' k _ hw0mem c0 (by simp))).2.2.2
        have hrA : ∀ d ∈ r, d.toNat ≤ 127 := fun d hd =>
          (hkc d (mem_mem_splitOnChar '_' k _ hw0mem d
            (List.mem_cons_of_mem c0 hd))).2.2.2
        rw [capitalizeWord_ascii_cons c0 r hc0A hrA]
        have hallA : ∀ d ∈ c0.toUpper :: r.map Char.toLower, d.toNat ≤ 127 := by
          intro d hd
          rcases List.mem_cons.mp hd with hd | hd
          · rw [hd]; exact toUpper_le_127 c0 hc0A
          · obtain ⟨e, he, hed⟩ := List.mem_map.mp hd
            rw [← hed]; exact toLower_le_127 e (hrA e he)
        rw [map_pyLower_ascii _ hallA]
        show Char.toLower c0.toUpper :: (r.map Char.toLower).map Char.toLower = c0 :: r
        have hc0 : Char.toLower c0 = c0 :=
          (hkc c0 (mem_mem_splitOnChar '_' k _ hw0mem c0 (by simp))).2.1
        rw [toLower_toUpper_of_stable c0 hc0]
        have hr : r.map Char.toLower = r := map_toLower_stable r (fun d hd =>
          (hkc d (mem_mem_splitOnChar '_' k _ hw0mem d (List.mem_cons_of_mem c0 hd))).2.1)
        rw [hr, hr]
  rw [hmapeq]
  exact joinWithChar_splitOnChar '_' k

theorem parseHeaderLine_body (k v : List Char) (m0 : HMap)
    (hk : GoodKey k) (hv : GoodValue v) :
    parseHeaderLine m0 (headerLineBody k v) = hmapAdd m0 k v := by
  obtain ⟨hfne, hfc⟩ := formatHeader_chars k hk
  unfold parseHeaderLine headerLineBody
  rw [show formatHeader k ++ ':' :: ' ' :: v = formatHeader k ++ ':' :: (' ' :: v)
    from rfl]
  rw [searchHeader_name_line (formatHeader k) (' ' :: v) hfne
    (fun c hc => (hfc c hc).1)]
  rw [stripWS_cons_ws ' ' v (by decide), hv.1]
  show hmapAdd m0 (normalizeHeader (formatHeader k)) v = hmapAdd m0 k v
  rw [normalizeHeader_formatHeader k hk]

theorem foldl_lines_last (k : List Char) (hk : GoodKey k) :
    ∀ (vs : List (List Char)), (∀ v ∈ vs, GoodValue v) →
    ∀ (m1 : HMap) (ws : List (List Char)), k ∉ m1.map Prod.fst →
    List.foldl parseHeaderLine (m1 ++ [(k, ws)])
      (vs.map (fun v => headerLineBody k v)) = m1 ++ [(k, ws ++ vs)] := by
  intro vs
  induction vs with
  | nil =>
      intro _ m1 ws _
      simp
  | cons v vs2 ih =>
      intro hgv m1 ws hdisj
      rw [List.map_cons, List.foldl_cons]
      rw [parseHeaderLine_body k v _ hk (hgv v (by simp))]
      rw [hmapAdd_last m1 k ws v hdisj]
      have := ih (fun w hw => hgv w (List.mem_cons_of_mem v hw)) m1 (ws ++ [v]) hdisj
      rw [this]
      simp

theorem foldl_hmapLines (m : HMap) :
    ∀ m0 : HMap, (m.map Prod.fst).Nodup →
    (∀ p ∈ m, GoodKey p.1 ∧ p.2 ≠ [] ∧ ∀ v ∈ p.2, GoodValue v) →
    (∀ k ∈ m.map Prod.fst, k ∉ m0.map Prod.fst) →
    List.foldl parseHeaderLine m0 (hmapLines m) = m0 ++ m := by
  induction m with
  | nil => intro m0 _ _ _; simp [hmapLines]
  | cons p rest ih =>
      intro m0 hnodup hgood hdisj
      obtain ⟨k, vs⟩ := p
      obtain ⟨hgk, hvne, hgv⟩ := hgood (k, vs) (by simp)
      show List.foldl parseHeaderLine m0
        (vs.map (fun v => headerLineBody k v) ++ hmapLines rest) = _
      rw [List.foldl_append]
      have hk0 : k ∉ m0.map Prod.fst := hdisj k (by simp)
      have hfirst : List.foldl parseHeaderLine m0 (vs.map (fun v => headerLineBody k v))
          = m0 ++ [(k, vs)] := by
        cases vs with
        | nil => exact absurd rfl hvne
        | cons v vs2 =>
            rw [List.map_cons, List.foldl_cons]
            rw [parseHeaderLine_body k v m0 hgk (hgv v (by simp))]
            rw [hmapAdd_absent m0 k v hk0]
            rw [foldl_lines_last k hgk vs2
              (fun w hw => hgv w (List.mem_cons_of_mem v hw)) m0 [v] hk0]
            rfl
      rw [hfirst]
      simp only [List.map_cons, List.nodup_cons] at hnodup
      have hrest := ih (m0 ++ [(k, vs)]) hnodup.2
        (fun q hq => hgood q (List.mem_cons_of_mem _ hq))
        (by
          intro k2 hk2 hcontra
          rw [List.map_append] at hcontra
          rcases List.mem_append.mp hcontra with hc | hc
          · exact hdisj k2 (show k2 ∈ k :: rest.map Prod.fst from
              List.mem_cons_of_mem k hk2) hc
          · simp only [List.map_cons, List.map_nil, List.mem_singleton] at hc
            rw [hc] at hk2
            exact hnodup.1 hk2)
      rw [hrest]
      simp

theorem hmapLines_mem (m : HMap) (l : List Char) (h : l ∈ hmapLines m) :
    ∃ k vs v, (k, vs) ∈ m ∧ v ∈ vs ∧ l = headerLineBody k v := by
  induction m with
  | nil => simp [hmapLines] at h
  | cons p rest ih =>
      obtain ⟨k, vs⟩ := p
      have h2 : l ∈ vs.map (fun v => headerLineBody k v) ++ hmapLines rest := h
      rcases List.mem_append.mp h2 with h | h
      · obtain ⟨v, hv, hlv⟩ := List.mem_map.mp h
        exact ⟨k, vs, v, by simp, hv, hlv.symm⟩
      · obtain ⟨k2, vs2, v2, hm2, hv2, hl2⟩ := ih h
        exact ⟨k2, vs2, v2, List.mem_cons_of_mem _ hm2, hv2, hl2⟩

theorem headerLineBody_noLF (k v : List Char) (hk : GoodKey k) (hv : GoodValue v) :
    '\n' ∉ headerLineBody k v := by
  obtain ⟨hfne, hfc⟩ := formatHeader_chars k hk
  intro hmem
  unfold headerLineBody at hmem
  rcases List.mem_append.mp hmem with hmem | hmem
  · exact isNameChar_ne_lf '\n' (hfc '\n' hmem).1 rfl
  · rcases List.mem_cons.mp hmem with hmem | hmem
    · exact absurd hmem.symm (by decide)
    · rcases List.mem_cons.mp hmem with hmem | hmem
      · exact absurd hmem.symm (by decide)
      · exact hv.2 hmem

theorem headerLineBody_goodLine (k v : List Char) (hk : GoodKey k) :
    stripWS (headerLineBody k v) ≠ [] ∧
      (headerLineBody k v).head? ≠ some ' ' ∧ (headerLineBody k v).head? ≠ some '\t' := by
  obtain ⟨hfne, hfc⟩ := formatHeader_chars k hk
  have hhead : (headerLineBody k v).head? = (formatHeader k).head? :=
    head?_append_left _ _ hfne
  have hheadgood : ∀ c, (formatHeader k).head? = some c → isNameChar c = true := by
    intro c hc
    cases hf : formatHeader k with
    | nil => rw [hf] at hc; simp at hc
    | cons d rest =>
        rw [hf] at hc
        simp only [List.head?_cons, Option.some.injEq] at hc
        rw [← hc]
        exact (hfc d (by rw [hf]; simp)).1
  refine ⟨?_, ?_, ?_⟩
  · intro hcontra
    rw [stripWS_eq_nil_iff] at hcontra
    have hcolon : (':') ∈ headerLineBody k v := by
      unfold headerLineBody
      exact List.mem_append_right _ (by simp)
    exact absurd (hcontra ':' hcolon) (by decide)
  · rw [hhead]
    intro hcontra
    have := hheadgood ' ' hcontra
    exact absurd (isNameChar_not_isWS ' ' this) (by decide)
  · rw [hhead]
    intro hcontra
    have := hheadgood '\t' hcontra
    exact absurd (isNameChar_not_isWS '\t' this) (by decide)

/-- **C6** (amended): for an ASCII raw header block, parsing, re-deriving
the raw bytes from the start line and the normalized-name→values map (as
`_update_raw_bytes` does, emitting one repeated line per value in
insertion order), and parsing the result yields exactly the same start
line and the same map.  The unrestricted claim is false of the source:
on a block with a non-ASCII name the Unicode case mappings of
`str.capitalize`/`str.lower` break the round-trip, as
`c6_unicode_roundtrip_counterexample` shows on `ß`. -/
theorem c6_header_roundtrip (raw sl : List Char) (m : HMap)
    (hascii : ∀ c ∈ raw, c.toNat ≤ 127)
    (h : parseRawHeaders raw = some (sl, m)) :
    parseRawHeaders (serializeHeaders sl m) = some (sl, m) := by
  obtain ⟨⟨hsl1, hsl2, hsl3, hsl4⟩, hnodup, hentries⟩ :=
    parseRawHeaders_spec raw sl m hascii h
  have hblocksLF : ∀ b ∈ sl :: (hmapLines m ++ [[]]), '\n' ∉ b := by
    intro b hb
    rcases List.mem_cons.mp hb with hb | hb
    · rw [hb]; exact hsl4
    · rcases List.mem_append.mp hb with hb | hb
      · obtain ⟨k, vs, v, hm2, hv2, hl2⟩ := hmapLines_mem m b hb
        obtain ⟨hgk, _, hgv⟩ := hentries (k, vs) hm2
        rw [hl2]
        exact headerLineBody_noLF k v hgk (hgv v hv2)
      · simp only [List.mem_singleton] at hb
        rw [hb]
        simp
  unfold parseRawHeaders splitHeaderLines
  rw [show serializeHeaders sl m = concatCRLFLines (sl :: (hmapLines m ++ [[]]))
    from rfl]
  rw [replaceCRLF_concat _ hblocksLF, splitOnChar_concatLF _ hblocksLF]
  have hrun : unfoldLines ((sl :: (hmapLines m ++ [[]])) ++ [[]]) =
      some (sl :: hmapLines m) := by
    show unfoldLinesAux [] ((sl :: (hmapLines m ++ [[]])) ++ [[]]) = _
    have hshape : (sl :: (hmapLines m ++ [[]])) ++ [[]] =
        (sl :: hmapLines m) ++ [[], []] := by simp
    rw [hshape]
    rw [unfoldLinesAux_run (sl :: hmapLines m) ?_ [] [] rfl rfl []]
    · rfl
    · intro l hl
      rcases List.mem_cons.mp hl with hl | hl
      · rw [hl]
        exact ⟨hsl1, hsl2, hsl3⟩
      · obtain ⟨k, vs, v, hm2, hv2, hl2⟩ := hmapLines_mem m l hl
        obtain ⟨hgk, _, _⟩ := hentries (k, vs) hm2
        rw [hl2]
        exact headerLineBody_goodLine k v hgk
  rw [hrun]
  show parseHeaderLines (sl :: hmapLines m) = some (sl, m)
  rw [show parseHeaderLines (sl :: hmapLines m) =
    some (sl, (hmapLines m).foldl parseHeaderLine []) from rfl]
  rw [foldl_hmapLines m [] hnodup hentries (by simp)]
  rfl

/-- Witness for C6 on a concrete header block with a repeated header. -/
theorem c6_header_roundtrip_witness :
    parseRawHeaders (serializeHeaders ("GET /x HTTP/1.1").data
        [(("host").data, [("a").data]), (("x_a").data, [("1").data, ("2").data])])
      = some (("GET /x HTTP/1.1").data,
          [(("host").data, [("a").data]), (("x_a").data, [("1").data, ("2").data])]) :=
  c6_header_roundtrip ("GET /x HTTP/1.1\r\nHost: a\r\nX-A: 1\r\nX-A: 2\r\n\r\n").data
    ("GET /x HTTP/1.1").data
    [(("host").data, [("a").data]), (("x_a").data, [("1").data, ("2").data])]
    (by decide)
    (by decide)

/-- **C6** (counterexample to the unrestricted claim): the block
`GET /x HTTP/1.1\r\nß: 1\r\n\r\n` parses to the map `{ß: [1]}`
(Python's `\w` matches `ß` and `str.lower` keeps it), but serializing
capitalizes the name to `Ss` (the Unicode titlecase of `ß`), and
re-parsing the serialized block normalizes `Ss` to `ss`: the
parse–serialize–parse map is `{ss: [1]}` ≠ `{ß: [1]}`, so
parse → serialize → parse is not an identity on every raw header
block. -/
theorem c6_unicode_roundtrip_counterexample :
    parseRawHeaders ("GET /x HTTP/1.1\r\nß: 1\r\n\r\n").data
      = some (("GET /x HTTP/1.1").data, [(("ß").data, [("1").data])]) ∧
    serializeHeaders ("GET /x HTTP/1.1").data [(("ß").data, [("1").data])]
      = ("GET /x HTTP/1.1\r\nSs: 1\r\n\r\n").data ∧
    parseRawHeaders (serializeHeaders ("GET /x HTTP/1.1").data
        [(("ß").data, [("1").data])])
      = some (("GET /x HTTP/1.1").data, [(("ss").data, [("1").data])]) ∧
    (("ss").data ≠ ("ß").data) := by
  refine ⟨by decide, by decide, by decide, by decide⟩

/-! ## Stream reader — `src/caching_proxy/http/reader.py`

The byte stream is modelled as a list of characters (one per byte; the
proxied content in these claims is ASCII, where the byte and decoded-text
views coincide). -/

/-- `reader.readuntil(b"\r\n")`: the data up to and including the first
CRLF; `none` when the stream ends first (`IncompleteReadError`). -/
def readUntilCRLF : List Char → Option (List Char × List Char)
  | [] => none
  | [_] => none
  | c :: c2 :: rest =>
      if c = '\r' ∧ c2 = '\n' then some (['\r', '\n'], rest)
      else (readUntilCRLF (c2 :: rest)).map (fun p => (c :: p.1, p.2))

/-- `reader.readuntil(b"\r\n\r\n")` (in `read_headers`). -/
def readUntilDoubleCRLF : List Char → Option (List Char × List Char)
  | c :: c2 :: c3 :: c4 :: rest =>
      if c = '\r' ∧ c2 = '\n' ∧ c3 = '\r' ∧ c4 = '\n' then
        some (['\r', '\n', '\r', '\n'], rest)
      else (readUntilDoubleCRLF (c2 :: c3 :: c4 :: rest)).map (fun p => (c :: p.1, p.2))
  | _ => none

/-- `reader.readexactly(n)`: `none` is the `IncompleteReadError` when
fewer than `n` bytes remain. -/
def readExactlyChars (n : Nat) (s : List Char) : Option (List Char × List Char) :=
  if s.length < n then none else some (s.take n, s.drop n)

/-- One hexadecimal digit of `int(·, 16)`. -/
def hexDigitVal (c : Char) : Option Nat :=
  if 48 ≤ c.toNat ∧ c.toNat ≤ 57 then some (c.toNat - 48)
  else if 97 ≤ c.toNat ∧ c.toNat ≤ 102 then some (c.toNat - 87)
  else if 65 ≤ c.toNat ∧ c.toNat ≤ 70 then some (c.toNat - 55)
  else none

def parseHexDigits : List Char → Nat → Option Nat
  | [], acc => some acc
  | c :: rest, acc =>
      match hexDigitVal c with
      | none => none
      | some d => parseHexDigits rest (acc * 16 + d)

/-- `int(size_line.strip().split(b";")[0], 16)` of `_read_chunked`:
strip the line, take the part before the first `;` (chunk extensions are
ignored), parse it as hexadecimal.  `int` itself strips surrounding
whitespace and rejects an empty token (`ValueError`, i.e. `none`).
(Python's `int(·, 16)` additionally accepts a sign, an `0x` prefix and
digit-group underscores; no conforming chunked encoder produces those, and
they are not modelled.) -/
def parseChunkSize (line : List Char) : Option Nat :=
  match stripWS ((splitOnChar ';' (stripWS line)).headD []) with
  | [] => none
  | c :: rest => parseHexDigits (c :: rest) 0

/-- The loop of `AsyncHTTPStreamReader._read_chunked`, by fuel.  Every
iteration consumes at least the CRLF of its size line, so `length + 1`
units of fuel (as supplied by `readChunked`) always outlast the stream:
the `0`-fuel branch is unreachable before an end-of-stream failure. -/
def readChunkedFuel : Nat → List Char → Option (List Char × List Char)
  | 0, _ => none
  | fuel + 1, s =>
      match readUntilCRLF s with
      | none => none
      | some (sizeLine, rest) =>
          match parseChunkSize sizeLine with
          | none => none
          | some size =>
              if size = 0 then
                match readUntilCRLF rest with
                | none => none
                | some (_, rest2) => some ([], rest2)
              else
                match readExactlyChars size rest with
                | none => none
                | some (chunk, rest2) =>
                    match readUntilCRLF rest2 with
                    | none => none
                    | some (_, rest3) =>
                        match readChunkedFuel fuel rest3 with
                        | none => none
                        | some (body, rest4) => some (chunk ++ body, rest4)

/-- `AsyncHTTPStreamReader._read_chunked`: concatenate chunk payloads
until the `0` chunk, then discard the trailer delimiter line. -/
def readChunked (s : List Char) : Option (List Char × List Char) :=
  readChunkedFuel (s.length + 1) s

/-! ## Message builder — `src/caching_proxy/http/message.py` (continued) -/

/-- `DechunkedAsyncStreamMessageBuilder._expect_chunked_body`:
`Transfer-Encoding` present and first value `"chunked"`.  (On a header
constructed with an empty value list Python's `[0]` would raise; parsed
headers never carry empty lists, and the model reports `false` there.) -/
def expectChunkedBody (h : HTTPHeaders) : Bool :=
  match h.getHeader ("transfer_encoding").data with
  | none => false
  | some vs => decide (vs.head? = some (("chunked").data))

/-- One decimal digit of `int(·)`. -/
def decDigitVal (c : Char) : Option Nat :=
  if 48 ≤ c.toNat ∧ c.toNat ≤ 57 then some (c.toNat - 48) else none

def parseDecDigits : List Char → Nat → Option Nat
  | [], acc => some acc
  | c :: rest, acc =>
      match decDigitVal c with
      | none => none
      | some d => parseDecDigits rest (acc * 10 + d)

/-- `DechunkedAsyncStreamMessageBuilder._expected_body_size`: `0` when
`Content-Length` is absent, otherwise `int(values[0])` (an empty value
list would raise `IndexError`; malformed digits raise `ValueError`; as
with the chunk size, sign and underscores are not modelled). -/
def expectedBodySize (h : HTTPHeaders) : Option Nat :=
  match h.getHeader ("content_length").data with
  | none => some 0
  | some [] => none
  | some (v :: _) =>
      match stripWS v with
      | [] => none
      | c :: rest => parseDecDigits (c :: rest) 0

/-- `str(body.size)`. -/
def natToDecChars (n : Nat) : List Char := Nat.toDigits 10 n

/-- `DechunkedAsyncStreamMessageBuilder._dechunk_body`: when a (truthy)
`Transfer-Encoding` header is present, delete it and set
`Content-Length` to the body size — `replace` when a truthy
`Content-Length` exists, `insert` otherwise. -/
def dechunkBody (h : HTTPHeaders) (bodyLen : Nat) : HTTPHeaders :=
  match h.getHeader ("transfer_encoding").data with
  | none => h
  | some [] => h
  | some (_ :: _) =>
      let h1 := (h.delete ("transfer_encoding").data).1
      match h1.getHeader ("content_length").data with
      | none => h1.insert ("content_length").data [natToDecChars bodyLen]
      | some [] => h1.insert ("content_length").data [natToDecChars bodyLen]
      | some (_ :: _) => (h1.replaceH ("content_length").data [natToDecChars bodyLen]).1

/-- `DechunkedAsyncStreamMessageBuilder._build_body`: returns the
(possibly rewritten) headers, the body bytes and the unread remainder of
the stream. -/
def buildBody (h : HTTPHeaders) (s : List Char) :
    Option (HTTPHeaders × List Char × List Char) :=
  if expectChunkedBody h then
    match readChunked s with
    | none => none
    | some (bodyRaw, rest) => some (dechunkBody h bodyRaw.length, bodyRaw, rest)
  else
    match expectedBodySize h with
    | none => none
    | some 0 => some (h, [], s)
    | some (n + 1) =>
        match readExactlyChars (n + 1) s with
        | none => none
        | some (b, rest) => some (h, b, rest)

/-- `DechunkedAsyncStreamMessageBuilder.build_response` /
`build_request`: read the header block, parse it, read the body by the
declared framing.  The result pairs the built message (headers, body)
with the unread remainder of the stream. -/
def buildResponseFromStream (s : List Char) :
    Option ((HTTPHeaders × List Char) × List Char) :=
  match readUntilDoubleCRLF s with
  | none => none
  | some (rawh, rest) =>
      match mkHTTPHeaders rawh with
      | none => none
      | some h =>
          match buildBody h rest with
          | none => none
          | some (h2, body, rest2) => some ((h2, body), rest2)

/-! ### Map lookups after mutations (for the dechunking claim) -/

theorem hmapGet_hmapRemove_self (m : HMap) (k : List Char) :
    hmapGet (hmapRemove m k) k = none := by
  induction m with
  | nil => rfl
  | cons p rest ih =>
      obtain ⟨n, vs⟩ := p
      by_cases hn : n = k
      · rw [show hmapRemove ((n, vs) :: rest) k = hmapRemove rest k from by
          conv_lhs => rw [hmapRemove]
          rw [if_pos hn]]
        exact ih
      · rw [show hmapRemove ((n, vs) :: rest) k = (n, vs) :: hmapRemove rest k from by
          conv_lhs => rw [hmapRemove]
          rw [if_neg hn]]
        rw [show hmapGet ((n, vs) :: hmapRemove rest k) k =
          hmapGet (hmapRemove rest k) k from by
          conv_lhs => rw [hmapGet]
          rw [if_neg hn]]
        exact ih

theorem hmapGet_hmapRemove_other (m : HMap) (k k2 : List Char) (h : k2 ≠ k) :
    hmapGet (hmapRemove m k) k2 = hmapGet m k2 := by
  induction m with
  | nil => rfl
  | cons p rest ih =>
      obtain ⟨n, vs⟩ := p
      by_cases hn : n = k
      · rw [show hmapRemove ((n, vs) :: rest) k = hmapRemove rest k from by
          conv_lhs => rw [hmapRemove]
          rw [if_pos hn]]
        rw [ih]
        rw [show hmapGet ((n, vs) :: rest) k2 = hmapGet rest k2 from by
          conv_lhs => rw [hmapGet]
          rw [if_neg (by rw [hn]; exact fun hc => h hc.symm)]]
      · rw [show hmapRemove ((n, vs) :: rest) k = (n, vs) :: hmapRemove rest k from by
          conv_lhs => rw [hmapRemove]
          rw [if_neg hn]]
        by_cases hn2 : n = k2
        · rw [show hmapGet ((n, vs) :: hmapRemove rest k) k2 = some vs from by
            conv_lhs => rw [hmapGet]
            rw [if_pos hn2]]
          rw [show hmapGet ((n, vs) :: rest) k2 = some vs from by
            conv_lhs => rw [hmapGet]
            rw [if_pos hn2]]
        · rw [show hmapGet ((n, vs) :: hmapRemove rest k) k2 =
            hmapGet (hmapRemove rest k) k2 from by
            conv_lhs => rw [hmapGet]
            rw [if_neg hn2]]
          rw [ih]
          rw [show hmapGet ((n, vs) :: rest) k2 = hmapGet rest k2 from by
            conv_lhs => rw [hmapGet]
            rw [if_neg hn2]]

theorem hmapGet_append_of_none (m tail : HMap) (k : List Char)
    (h : hmapGet m k = none) : hmapGet (m ++ tail) k = hmapGet tail k := by
  induction m with
  | nil => rfl
  | cons p rest ih =>
      obtain ⟨n, vs⟩ := p
      by_cases hn : n = k
      · rw [show hmapGet ((n, vs) :: rest) k = some vs from by
          conv_lhs => rw [hmapGet]
          rw [if_pos hn]] at h
        exact absurd h (by simp)
      · rw [show hmapGet ((n, vs) :: rest) k = hmapGet rest k from by
          conv_lhs => rw [hmapGet]
          rw [if_neg hn]] at h
        rw [List.cons_append]
        rw [show hmapGet ((n, vs) :: (rest ++ tail)) k = hmapGet (rest ++ tail) k from by
          conv_lhs => rw [hmapGet]
          rw [if_neg hn]]
        exact ih h

theorem hmapGet_hmapExtend_self (m : HMap) (k : List Char) (old vs : List (List Char))
    (h : hmapGet m k = some old) : hmapGet (hmapExtend m k vs) k = some (old ++ vs) := by
  induction m with
  | nil => simp [hmapGet] at h
  | cons p rest ih =>
      obtain ⟨n, nvs⟩ := p
      by_cases hn : n = k
      · rw [show hmapGet ((n, nvs) :: rest) k = some nvs from by
          conv_lhs => rw [hmapGet]
          rw [if_pos hn]] at h
        simp only [Option.some.injEq] at h
        rw [show hmapExtend ((n, nvs) :: rest) k vs = (n, nvs ++ vs) :: rest from by
          conv_lhs => rw [hmapExtend]
          rw [if_pos hn]]
        rw [show hmapGet ((n, nvs ++ vs) :: rest) k = some (nvs ++ vs) from by
          conv_lhs => rw [hmapGet]
          rw [if_pos hn]]
        rw [h]
      · rw [show hmapGet ((n, nvs) :: rest) k = hmapGet rest k from by
          conv_lhs => rw [hmapGet]
          rw [if_neg hn]] at h
        rw [show hmapExtend ((n, nvs) :: rest) k vs = (n, nvs) :: hmapExtend rest k vs from by
          conv_lhs => rw [hmapExtend]
          rw [if_neg hn]]
        rw [show hmapGet ((n, nvs) :: hmapExtend rest k vs) k =
          hmapGet (hmapExtend rest k vs) k from by
          conv_lhs => rw [hmapGet]
          rw [if_neg hn]]
        exact ih h

theorem hmapGet_hmapExtend_other (m : HMap) (k k2 : List Char) (vs : List (List Char))
    (h : k2 ≠ k) : hmapGet (hmapExtend m k vs) k2 = hmapGet m k2 := by
  induction m with
  | nil => rfl
  | cons p rest ih =>
      obtain ⟨n, nvs⟩ := p
      by_cases hn : n = k
      · rw [show hmapExtend ((n, nvs) :: rest) k vs = (n, nvs ++ vs) :: rest from by
          conv_lhs => rw [hmapExtend]
          rw [if_pos hn]]
        have hn2 : n ≠ k2 := by rw [hn]; exact fun hc => h hc.symm
        rw [show hmapGet ((n, nvs ++ vs) :: rest) k2 = hmapGet rest k2 from by
          conv_lhs => rw [hmapGet]
          rw [if_neg hn2]]
        rw [show hmapGet ((n, nvs) :: rest) k2 = hmapGet rest k2 from by
          conv_lhs => rw [hmapGet]
          rw [if_neg hn2]]
      · rw [show hmapExtend ((n, nvs) :: rest) k vs = (n, nvs) :: hmapExtend rest k vs from by
          conv_lhs => rw [hmapExtend]
          rw [if_neg hn]]
        by_cases hn2 : n = k2
        · rw [show hmapGet ((n, nvs) :: hmapExtend rest k vs) k2 = some nvs from by
            conv_lhs => rw [hmapGet]
            rw [if_pos hn2]]
          rw [show hmapGet ((n, nvs) :: rest) k2 = some nvs from by
            conv_lhs => rw [hmapGet]
            rw [if_pos hn2]]
        · rw [show hmapGet ((n, nvs) :: hmapExtend rest k vs) k2 =
            hmapGet (hmapExtend rest k vs) k2 from by
            conv_lhs => rw [hmapGet]
            rw [if_neg hn2]]
          rw [ih]
          rw [show hmapGet ((n, nvs) :: rest) k2 = hmapGet rest k2 from by
            conv_lhs => rw [hmapGet]
            rw [if_neg hn2]]

theorem hmapGet_hmapSetValues_self (m : HMap) (k : List Char) (vs old : List (List Char))
    (h : hmapGet m k = some old) : hmapGet (hmapSetValues m k vs) k = some vs := by
  induction m with
  | nil => simp [hmapGet] at h
  | cons p rest ih =>
      obtain ⟨n, nvs⟩ := p
      by_cases hn : n = k
      · rw [show hmapSetValues ((n, nvs) :: rest) k vs = (k, vs) :: rest from by
          conv_lhs => rw [hmapSetValues]
          rw [if_pos hn]]
        rw [show hmapGet ((k, vs) :: rest) k = some vs from by
          conv_lhs => rw [hmapGet]
          rw [if_pos rfl]]
      · rw [show hmapGet ((n, nvs) :: rest) k = hmapGet rest k from by
          conv_lhs => rw [hmapGet]
          rw [if_neg hn]] at h
        rw [show hmapSetValues ((n, nvs) :: rest) k vs =
          (n, nvs) :: hmapSetValues rest k vs from by
          conv_lhs => rw [hmapSetValues]
          rw [if_neg hn]]
        rw [show hmapGet ((n, nvs) :: hmapSetValues rest k vs) k =
          hmapGet (hmapSetValues rest k vs) k from by
          conv_lhs => rw [hmapGet]
          rw [if_neg hn]]
        exact ih h

theorem hmapGet_hmapSetValues_other (m : HMap) (k k2 : List Char)
    (vs : List (List Char)) (h : k2 ≠ k) :
    hmapGet (hmapSetValues m k vs) k2 = hmapGet m k2 := by
  induction m with
  | nil => rfl
  | cons p rest ih =>
      obtain ⟨n, nvs⟩ := p
      by_cases hn : n = k
      · rw [show hmapSetValues ((n, nvs) :: rest) k vs = (k, vs) :: rest from by
          conv_lhs => rw [hmapSetValues]
          rw [if_pos hn]]
        have hk2 : k ≠ k2 := fun hc => h hc.symm
        have hn2 : n ≠ k2 := by rw [hn]; exact hk2
        rw [show hmapGet ((k, vs) :: rest) k2 = hmapGet rest k2 from by
          conv_lhs => rw [hmapGet]
          rw [if_neg hk2]]
        rw [show hmapGet ((n, nvs) :: rest) k2 = hmapGet rest k2 from by
          conv_lhs => rw [hmapGet]
          rw [if_neg hn2]]
      · rw [show hmapSetValues ((n, nvs) :: rest) k vs =
          (n, nvs) :: hmapSetValues rest k vs from by
          conv_lhs => rw [hmapSetValues]
          rw [if_neg hn]]
        by_cases hn2 : n = k2
        · rw [show hmapGet ((n, nvs) :: hmapSetValues rest k vs) k2 = some nvs from by
            conv_lhs => rw [hmapGet]
            rw [if_pos hn2]]
          rw [show hmapGet ((n, nvs) :: rest) k2 = some nvs from by
            conv_lhs => rw [hmapGet]
            rw [if_pos hn2]]
        · rw [show hmapGet ((n, nvs) :: hmapSetValues rest k vs) k2 =
            hmapGet (hmapSetValues rest k vs) k2 from by
            conv_lhs => rw [hmapGet]
            rw [if_neg hn2]]
          rw [ih]
          rw [show hmapGet ((n, nvs) :: rest) k2 = hmapGet rest k2 from by
            conv_lhs => rw [hmapGet]
            rw [if_neg hn2]]

theorem updateRawBytes_headers (h : HTTPHeaders) :
    (updateRawBytes h).headers = h.headers := rfl

theorem expectChunkedBody_spec (h : HTTPHeaders) (hx : expectChunkedBody h = true) :
    ∃ vs, h.getHeader ("transfer_encoding").data = some ((("chunked").data) :: vs) := by
  unfold expectChunkedBody at hx
  cases hg : h.getHeader (("transfer_encoding").data) with
  | none => rw [hg] at hx; simp at hx
  | some vs =>
      rw [hg] at hx
      simp only [decide_eq_true_eq] at hx
      cases vs with
      | nil => simp at hx
      | cons v rest =>
          simp only [List.head?_cons, Option.some.injEq] at hx
          subst hx
          exact ⟨rest, rfl⟩

theorem dechunkBody_spec (h : HTTPHeaders) (n : Nat) (v : List Char)
    (vs : List (List Char))
    (hte : h.getHeader ("transfer_encoding").data = some (v :: vs)) :
    (dechunkBody h n).getHeader ("transfer_encoding").data = none ∧
    (dechunkBody h n).getHeader ("content_length").data = some [natToDecChars n] := by
  have hte2 : hmapGet h.headers (normalizeHeader ("transfer_encoding").data) =
      some (v :: vs) := hte
  have hnorm_ne : normalizeHeader ("content_length").data ≠
      normalizeHeader ("transfer_encoding").data := by decide
  have hdel1 : (HTTPHeaders.delete h (("transfer_encoding").data)).1.headers =
      hmapRemove h.headers (normalizeHeader ("transfer_encoding").data) := by
    unfold HTTPHeaders.delete
    rw [hte2]
    rfl
  have hdel_te : (HTTPHeaders.delete h (("transfer_encoding").data)).1.getHeader
      ("transfer_encoding").data = none := by
    unfold HTTPHeaders.getHeader
    rw [hdel1]
    exact hmapGet_hmapRemove_self _ _
  unfold dechunkBody
  simp only [hte]
  cases hcl : (HTTPHeaders.delete h (("transfer_encoding").data)).1.getHeader
      ("content_length").data with
  | none =>
      simp only [hcl]
      have hcl2 : hmapGet
          (HTTPHeaders.delete h (("transfer_encoding").data)).1.headers
          (normalizeHeader ("content_length").data) = none := hcl
      constructor
      · unfold HTTPHeaders.insert HTTPHeaders.getHeader
        rw [hcl2]
        rw [updateRawBytes_headers]
        show hmapGet ((HTTPHeaders.delete h (("transfer_encoding").data)).1.headers ++
          [(normalizeHeader ("content_length").data, [natToDecChars n])])
          (normalizeHeader ("transfer_encoding").data) = none
        rw [hmapGet_append_of_none _ _ _ (by
          show hmapGet _ (normalizeHeader ("transfer_encoding").data) = none
          exact hdel_te)]
        rw [show hmapGet [(normalizeHeader ("content_length").data, [natToDecChars n])]
          (normalizeHeader ("transfer_encoding").data) = none from by
          conv_lhs => rw [hmapGet]
          rw [if_neg hnorm_ne]
          rfl]
      · unfold HTTPHeaders.insert HTTPHeaders.getHeader
        rw [hcl2]
        rw [updateRawBytes_headers]
        show hmapGet ((HTTPHeaders.delete h (("transfer_encoding").data)).1.headers ++
          [(normalizeHeader ("content_length").data, [natToDecChars n])])
          (normalizeHeader ("content_length").data) = some [natToDecChars n]
        rw [hmapGet_append_of_none _ _ _ hcl2]
        conv_lhs => rw [hmapGet]
        rw [if_pos rfl]
  | some clvs =>
      have hcl2 : hmapGet
          (HTTPHeaders.delete h (("transfer_encoding").data)).1.headers
          (normalizeHeader ("content_length").data) = some clvs := hcl
      cases clvs with
      | nil =>
          simp only [hcl]
          constructor
          · unfold HTTPHeaders.insert HTTPHeaders.getHeader
            rw [hcl2]
            rw [updateRawBytes_headers]
            show hmapGet (hmapExtend
              (HTTPHeaders.delete h (("transfer_encoding").data)).1.headers
              (normalizeHeader ("content_length").data) [natToDecChars n])
              (normalizeHeader ("transfer_encoding").data) = none
            rw [hmapGet_hmapExtend_other _ _ _ _ (fun hc => hnorm_ne hc.symm)]
            exact hdel_te
          · unfold HTTPHeaders.insert HTTPHeaders.getHeader
            rw [hcl2]
            rw [updateRawBytes_headers]
            show hmapGet (hmapExtend
              (HTTPHeaders.delete h (("transfer_encoding").data)).1.headers
              (normalizeHeader ("content_length").data) [natToDecChars n])
              (normalizeHeader ("content_length").data) = some [natToDecChars n]
            rw [hmapGet_hmapExtend_self _ _ [] _ hcl2]
            rfl
      | cons w ws =>
          simp only [hcl]
          constructor
          · unfold HTTPHeaders.replaceH HTTPHeaders.getHeader
            rw [hcl2]
            rw [updateRawBytes_headers]
            show hmapGet (hmapSetValues
              (HTTPHeaders.delete h (("transfer_encoding").data)).1.headers
              (normalizeHeader ("content_length").data) [natToDecChars n])
              (normalizeHeader ("transfer_encoding").data) = none
            rw [hmapGet_hmapSetValues_other _ _ _ _ (fun hc => hnorm_ne hc.symm)]
            exact hdel_te
          · unfold HTTPHeaders.replaceH HTTPHeaders.getHeader
            rw [hcl2]
            rw [updateRawBytes_headers]
            show hmapGet (hmapSetValues
              (HTTPHeaders.delete h (("transfer_encoding").data)).1.headers
              (normalizeHeader ("content_length").data) [natToDecChars n])
              (normalizeHeader ("content_length").data) = some [natToDecChars n]
            exact hmapGet_hmapSetValues_self _ _ _ (w :: ws) hcl2

/-- **C5.** For every message built from a stream whose headers select
chunked framing, the built message's `Transfer-Encoding` header is absent
and its `Content-Length` header holds exactly the decoded body's length
(the dechunking replaces an existing `Content-Length` and inserts one
otherwise — both branches of `dechunkBody` are covered by
`dechunkBody_spec`). -/
theorem c5_dechunked_message (s rawh hrest : List Char) (h0 : HTTPHeaders)
    (result : HTTPHeaders × List Char) (rest2 : List Char)
    (hread : readUntilDoubleCRLF s = some (rawh, hrest))
    (hmk : mkHTTPHeaders rawh = some h0)
    (hchunk : expectChunkedBody h0 = true)
    (hb : buildResponseFromStream s = some (result, rest2)) :
    result.1.getHeader ("transfer_encoding").data = none ∧
    result.1.getHeader ("content_length").data
      = some [natToDecChars result.2.length] := by
  obtain ⟨r1, r2⟩ := result
  unfold buildResponseFromStream at hb
  rw [hread] at hb
  simp only [hmk] at hb
  unfold buildBody at hb
  rw [if_pos hchunk] at hb
  cases hr : readChunked hrest with
  | none => rw [hr] at hb; exact absurd hb (by simp)
  | some p =>
      obtain ⟨bodyRaw, rest⟩ := p
      simp only [hr, Option.some.injEq, Prod.mk.injEq] at hb
      obtain ⟨⟨hh, hbdy⟩, -⟩ := hb
      subst hh
      subst hbdy
      obtain ⟨vs, hte⟩ := expectChunkedBody_spec h0 hchunk
      exact dechunkBody_spec h0 bodyRaw.length (("chunked").data) vs hte

theorem c5_dechunked_message_witness :
    ((⟨("HTTP/1.1 200 OK\r\nContent-Length: 9\r\n\r\n").data,
        ("HTTP/1.1 200 OK").data,
        [(("content_length").data, [("9").data])]⟩ : HTTPHeaders),
      ("Wikipedia").data).1.getHeader ("transfer_encoding").data = none ∧
    ((⟨("HTTP/1.1 200 OK\r\nContent-Length: 9\r\n\r\n").data,
        ("HTTP/1.1 200 OK").data,
        [(("content_length").data, [("9").data])]⟩ : HTTPHeaders),
      ("Wikipedia").data).1.getHeader ("content_length").data
      = some [natToDecChars (("Wikipedia").data).length] :=
  c5_dechunked_message
    ("HTTP/1.1 200 OK\r\nTransfer-Encoding: chunked\r\n\r\n4\r\nWiki\r\n5\r\npedia\r\n0\r\n\r\n").data
    ("HTTP/1.1 200 OK\r\nTransfer-Encoding: chunked\r\n\r\n").data
    ("4\r\nWiki\r\n5\r\npedia\r\n0\r\n\r\n").data
    ⟨("HTTP/1.1 200 OK\r\nTransfer-Encoding: chunked\r\n\r\n").data,
      ("HTTP/1.1 200 OK").data,
      [(("transfer_encoding").data, [("chunked").data])]⟩
    (⟨("HTTP/1.1 200 OK\r\nContent-Length: 9\r\n\r\n").data,
        ("HTTP/1.1 200 OK").data,
        [(("content_length").data, [("9").data])]⟩,
      ("Wikipedia").data)
    []
    (by decide) (by decide) (by decide) (by decide)

/-! ## Request handler — `src/caching_proxy/server.py`

The handler is modelled per connection: the parsed request is summarised
by its request line (the cache key used by the code is
`request.request_line` verbatim), the origin's answer by the
header/body pair that a MISS would store.  Network writes are recorded
as the `forwardedToOrigin` flag and the `X-Cached-By-Proxy` stamp. -/

/-- `HTTPRequest.method`: `request_line.split(" ")[0].upper()`.
(`str.split` with an explicit separator never returns an empty list, so
the `[0]` never raises; `splitOnChar` likewise always yields a first
part.) -/
def requestMethod (requestLine : List Char) : List Char :=
  ((splitOnChar ' ' requestLine).headD []).map Char.toUpper

/-- The dict `{"header": response.headers.raw, "body": response.body.raw}`
stored by `cache_response`. -/
structure CachedResponseVal where
  header : List Char
  body : List Char
deriving Repr, DecidableEq

/-- Outcome of one `_handle_request` call: the cache state afterwards,
the `X-Cached-By-Proxy` stamp put on the response, and whether the
request was forwarded to the origin. -/
structure HandleResult where
  storage : InMemoryResponseCache (List Char) CachedResponseVal
  stamp : List Char
  forwardedToOrigin : Bool
deriving Repr, DecidableEq

/-- The GET path of `_handle_request` (lines 65-86): look the verbatim
request line up; on a hit, read the cached entry and stamp `HIT`; on a
miss, fetch from the origin, store the response and stamp `MISS`.
`none` models an uncaught exception. -/
def handleGetBranch (storage : InMemoryResponseCache (List Char) CachedResponseVal)
    (requestLine : List Char) (originResponse : CachedResponseVal) :
    Option HandleResult :=
  match hasCachedResponse storage requestLine with
  | (s1, true) =>
      match getCachedResponse s1 requestLine with
      | none => none
      | some (s2, _) => some ⟨s2, ("HIT").data, false⟩
  | (s1, false) =>
      match cacheResponse s1 requestLine originResponse with
      | none => none
      | some s2 => some ⟨s2, ("MISS").data, true⟩

/-- `_handle_request` (lines 57-86): the non-GET test comes first and
returns without ever naming `self.storage`; otherwise the GET path
runs. -/
def handleRequest (storage : InMemoryResponseCache (List Char) CachedResponseVal)
    (requestLine : List Char) (originResponse : CachedResponseVal) :
    Option HandleResult :=
  if requestMethod requestLine ≠ ("GET").data then
    some ⟨storage, ("MISS").data, true⟩
  else
    handleGetBranch storage requestLine originResponse

/-- **C7.** For every request whose method is not GET, the handler
forwards to the origin, stamps `X-Cached-By-Proxy: MISS`, and returns
with the cache state it started with: the non-GET branch performs no
lookup, insertion or eviction. -/
theorem c7_non_get_untouched_cache
    (storage : InMemoryResponseCache (List Char) CachedResponseVal)
    (requestLine : List Char) (originResponse : CachedResponseVal)
    (hm : requestMethod requestLine ≠ ("GET").data) :
    handleRequest storage requestLine originResponse
      = some ⟨storage, ("MISS").data, true⟩ := by
  unfold handleRequest
  rw [if_pos hm]

theorem c7_non_get_untouched_cache_witness :
    handleRequest ⟨[], 10, "lru", 3⟩ (("POST /x HTTP/1.1").data)
        ⟨("h").data, ("b").data⟩
      = some ⟨⟨[], 10, "lru", 3⟩, ("MISS").data, true⟩ :=
  c7_non_get_untouched_cache ⟨[], 10, "lru", 3⟩ (("POST /x HTTP/1.1").data)
    ⟨("h").data, ("b").data⟩ (by decide)

/-- **C9.** The GET check is case-insensitive on the method token: when
the request line's first space-separated token upper-cases to `GET`,
`HTTPRequest.method` returns `GET` and the handler takes the caching
branch — the same branch an upper-case GET request takes. -/
theorem c9_method_case_insensitive (requestLine : List Char)
    (storage : InMemoryResponseCache (List Char) CachedResponseVal)
    (originResponse : CachedResponseVal)
    (hm : ((splitOnChar ' ' requestLine).headD []).map Char.toUpper
      = ("GET").data) :
    requestMethod requestLine = ("GET").data ∧
    handleRequest storage requestLine originResponse
      = handleGetBranch storage requestLine originResponse := by
  have h1 : requestMethod requestLine = ("GET").data := hm
  refine ⟨h1, ?_⟩
  unfold handleRequest
  rw [if_neg (not_not_intro h1)]

theorem c9_method_case_insensitive_witness :
    requestMethod (("get /x HTTP/1.1").data) = ("GET").data ∧
    handleRequest ⟨[], 2, "lru", 3⟩ (("get /x HTTP/1.1").data)
        ⟨("h").data, ("b").data⟩
      = handleGetBranch ⟨[], 2, "lru", 3⟩ (("get /x HTTP/1.1").data)
        ⟨("h").data, ("b").data⟩ :=
  c9_method_case_insensitive (("get /x HTTP/1.1").data) ⟨[], 2, "lru", 3⟩
    ⟨("h").data, ("b").data⟩ (by decide)
